import Mathlib

/-!
Verification development for the graph-utility script (src/src/7tutorial.py).

The script builds an undirected graph with networkx, and offers four queries:
degree lookup (get_degree), recursive depth-first traversal (dfs_traversal),
queue-based breadth-first traversal (bfs_traversal) and unweighted
shortest-path lookup (find_shortest_path).  The graph store itself (networkx)
is the external collaborator of the script; we embed the slice of its
behaviour the script uses: an ordered adjacency structure with insertion-order
node and neighbour enumeration, degree lookup counting a self-loop twice,
membership test, neighbour enumeration raising NetworkXError on an absent
node, and unweighted shortest-path search raising NodeNotFound when an
endpoint is absent and NetworkXNoPath when no path exists.
-/

/-- Undirected graph in adjacency-list form, mirroring the networkx Graph
object used by the script: an ordered association list from each node to its
ordered neighbour list (dict insertion order). -/
structure Graph where
  adj : List (Nat × List Nat)
deriving DecidableEq

/-- Node list of the graph, in insertion order (networkx G.nodes()). -/
def Graph.nodes (G : Graph) : List Nat := G.adj.map Prod.fst

/-- Neighbour list of a node, in insertion order; an absent node has no
entry, which we read as the empty list (the fallible networkx call is
Graph.nbrsE below). -/
def Graph.neighbors (G : Graph) (n : Nat) : List Nat :=
  ((G.adj.find? fun p => decide (p.1 = n)).map Prod.snd).getD []

/-- Every node identifier mentioned anywhere in the adjacency structure:
the keys and all members of the neighbour lists.  Used to bound traversals. -/
def Graph.support (G : Graph) : List Nat := G.adj.flatMap fun p => p.1 :: p.2

/-- Python exceptions that the script's operations can surface: the script's
own ValueError, and networkx's NetworkXError (raised by neighbour enumeration
on an absent node). -/
inductive PyError where
  | valueError (msg : String)
  | networkXError (msg : String)
deriving DecidableEq

/-- Membership of one string in another, used to state that an error message
names a node. -/
def containsStr (s sub : String) : Prop := ∃ pre post, s = pre ++ (sub ++ post)

/-- Fallible neighbour enumeration: networkx Graph.neighbors raises
NetworkXError (message "The node n is not in the graph.") when n is absent,
and otherwise yields the adjacency entries in insertion order. -/
def Graph.nbrsE (G : Graph) (n : Nat) : Except PyError (List Nat) :=
  if n ∈ G.nodes then .ok (G.neighbors n)
  else .error (.networkXError ("The node " ++ (toString n ++ " is not in the graph.")))

/-- Degree of a node per the networkx convention: the number of adjacency
entries, a self-loop counting twice (len(adj[n]) plus one if n is its own
neighbour). -/
def Graph.degreeOf (G : Graph) (n : Nat) : Nat :=
  (G.neighbors n).length + (if n ∈ G.neighbors n then 1 else 0)

/-- Embedding of get_degree (7tutorial.py lines 19-33): if node in G return
G.degree[node], else raise ValueError("Simpul node tidak ada dalam graf."). -/
def get_degree (G : Graph) (node : Nat) : Except PyError Nat :=
  if node ∈ G.nodes then .ok (G.degreeOf node)
  else .error (.valueError ("Simpul " ++ (toString node ++ " tidak ada dalam graf.")))

/-- Record a node in the adjacency structure if it is new (networkx add_node
as performed implicitly by add_edge): a fresh node goes to the end of the
node order with an empty neighbour list. -/
def Graph.addNode (G : Graph) (n : Nat) : Graph :=
  if n ∈ G.nodes then G else ⟨G.adj ++ [(n, [])]⟩

/-- Record v in the neighbour list of u if not already present (one half of
networkx add_edge, which sets adj[u][v]); a new neighbour goes to the end of
u's neighbour list. -/
def Graph.addHalf (G : Graph) (u v : Nat) : Graph :=
  ⟨G.adj.map fun p =>
    if p.1 = u then (p.1, if v ∈ p.2 then p.2 else p.2 ++ [v]) else p⟩

/-- Embedding of networkx Graph.add_edge(u, v): add both endpoints as nodes
when absent (u first), then record each endpoint in the other's neighbour
list (adj[u][v] then adj[v][u]; for a self-loop the single entry adj[u][u]). -/
def Graph.addEdge (G : Graph) (u v : Nat) : Graph :=
  (((G.addNode u).addNode v).addHalf u v).addHalf v u

/-- Embedding of create_graph (7tutorial.py lines 5-17): start from the empty
networkx graph and add_edges_from the given edge list, in order. -/
def create_graph (edges : List (Nat × Nat)) : Graph :=
  edges.foldl (fun G e => G.addEdge e.1 e.2) ⟨[]⟩

/-!  Termination infrastructure for the traversal loops: the number of
identifiers mentioned by the graph or the pending work that are not yet
visited. -/

/-- Number of identifiers among the graph's support and the extra list that
are not yet in visited. -/
def unseen (G : Graph) (extra visited : List Nat) : Nat :=
  ((G.support ++ extra).toFinset \ visited.toFinset).card

theorem mem_support_of_mem_neighbors (G : Graph) {n x : Nat}
    (hx : x ∈ G.neighbors n) : x ∈ G.support := by
  cases h : G.adj.find? fun p => decide (p.1 = n) with
  | none =>
    have he : G.neighbors n = [] := by unfold Graph.neighbors; rw [h]; rfl
    rw [he] at hx; cases hx
  | some p =>
    have he : G.neighbors n = p.2 := by unfold Graph.neighbors; rw [h]; rfl
    rw [he] at hx
    have hp : p ∈ G.adj := List.mem_of_find?_eq_some h
    exact List.mem_flatMap.mpr ⟨p, hp, List.mem_cons_of_mem _ hx⟩

theorem length_le_support_of_mem {l : List (Nat × List Nat)} {p : Nat × List Nat}
    (hp : p ∈ l) : p.2.length ≤ (l.flatMap fun q => q.1 :: q.2).length := by
  induction l with
  | nil => cases hp
  | cons q rest ih =>
    simp only [List.flatMap_cons, List.length_append, List.length_cons]
    rcases List.mem_cons.mp hp with h | h
    · subst h; omega
    · have := ih h; omega

theorem neighbors_length_le (G : Graph) (n : Nat) :
    (G.neighbors n).length ≤ G.support.length := by
  cases h : G.adj.find? fun p => decide (p.1 = n) with
  | none =>
    have he : G.neighbors n = [] := by unfold Graph.neighbors; rw [h]; rfl
    rw [he]; exact Nat.zero_le _
  | some p =>
    have he : G.neighbors n = p.2 := by unfold Graph.neighbors; rw [h]; rfl
    rw [he]
    exact length_le_support_of_mem (List.mem_of_find?_eq_some h)

theorem unseen_le (G : Graph) {e₁ e₂ v : List Nat}
    (h : ∀ x ∈ e₁, x ∈ e₂ ∨ x ∈ G.support) : unseen G e₁ v ≤ unseen G e₂ v := by
  apply Finset.card_le_card
  intro x hx
  rw [Finset.mem_sdiff] at hx ⊢
  refine ⟨?_, hx.2⟩
  rw [List.mem_toFinset, List.mem_append] at hx ⊢
  rcases hx.1 with hs | he
  · exact Or.inl hs
  · rcases h x he with h' | h'
    · exact Or.inr h'
    · exact Or.inl h'

theorem unseen_lt (G : Graph) {e₁ e₂ v : List Nat} {nb : Nat}
    (hnb : nb ∉ v) (hmem : nb ∈ e₂)
    (h : ∀ x ∈ e₁, x ∈ e₂ ∨ x ∈ G.support) :
    unseen G e₁ (nb :: v) < unseen G e₂ v := by
  apply Finset.card_lt_card
  constructor
  · intro x hx
    rw [Finset.mem_sdiff] at hx ⊢
    constructor
    · rw [List.mem_toFinset, List.mem_append] at hx ⊢
      rcases hx.1 with hs | he
      · exact Or.inl hs
      · rcases h x he with h' | h'
        · exact Or.inr h'
        · exact Or.inl h'
    · intro hv
      refine hx.2 ?_
      rw [List.mem_toFinset] at hv ⊢
      exact List.mem_cons_of_mem _ hv
  · intro hsub
    have hnbmem : nb ∈ (G.support ++ e₂).toFinset \ v.toFinset := by
      rw [Finset.mem_sdiff, List.mem_toFinset, List.mem_append]
      exact ⟨Or.inr hmem, fun hv => hnb (List.mem_toFinset.mp hv)⟩
    have := hsub hnbmem
    rw [Finset.mem_sdiff, List.mem_toFinset] at this
    exact this.2 (by simp)

theorem nbrsE_ok {G : Graph} {n : Nat} {l : List Nat}
    (h : G.nbrsE n = .ok l) : l = G.neighbors n ∧ n ∈ G.nodes := by
  unfold Graph.nbrsE at h
  by_cases hn : n ∈ G.nodes
  · rw [if_pos hn] at h; exact ⟨(Except.ok.injEq _ _ ▸ h.symm : _ = _), hn⟩
  · rw [if_neg hn] at h; cases h

theorem nbrsE_error {G : Graph} {n : Nat}
    (h : n ∉ G.nodes) :
    G.nbrsE n = .error (.networkXError ("The node " ++ (toString n ++ " is not in the graph."))) := by
  unfold Graph.nbrsE; rw [if_neg h]

/-- Small-step embedding of the recursive dfs helper in dfs_traversal
(7tutorial.py lines 46-56).  The frames list is the call stack: each frame is
the not-yet-processed tail of the neighbour iteration of one active dfs call.
Entering dfs(nb) marks nb visited, appends it to the traversal order and
pushes its whole neighbour list as a new frame; the visited-check of the
Python for-loop happens when nb comes to the front of the top frame.  The
neighbour enumeration is the fallible networkx call, so an absent node makes
the whole traversal raise. -/
def dfsLoop (G : Graph) (frames : List (List Nat)) (visited order : List Nat) :
    Except PyError (List Nat) :=
  match frames with
  | [] => .ok order
  | [] :: rest => dfsLoop G rest visited order
  | (nb :: nbs) :: rest =>
    if nb ∈ visited then dfsLoop G (nbs :: rest) visited order
    else
      match h : G.nbrsE nb with
      | .error e => .error e
      | .ok newNbs =>
        dfsLoop G (newNbs :: nbs :: rest) (nb :: visited) (order ++ [nb])
termination_by
  unseen G frames.flatten visited * (G.support.length + 2)
    + frames.flatten.length + frames.length
decreasing_by
  · simp only [List.flatten_cons, List.nil_append, List.length_cons]
    omega
  · simp only [List.flatten_cons, List.cons_append, List.length_cons, List.length_append]
    have h1 : unseen G (nbs ++ rest.flatten) visited ≤
        unseen G (nb :: (nbs ++ rest.flatten)) visited :=
      unseen_le G (fun x hx => Or.inl (List.mem_cons_of_mem _ hx))
    have h2 := Nat.mul_le_mul_right (G.support.length + 2) h1
    omega
  · simp only [List.flatten_cons, List.cons_append, List.length_cons, List.length_append]
    have hnew : newNbs = G.neighbors nb := (nbrsE_ok h).1
    have h1 : unseen G (newNbs ++ (nbs ++ rest.flatten)) (nb :: visited) <
        unseen G (nb :: (nbs ++ rest.flatten)) visited := by
      apply unseen_lt G (by assumption) (List.mem_cons_self _ _)
      intro x hx
      rcases List.mem_append.mp hx with hx | hx
      · exact Or.inr (mem_support_of_mem_neighbors G (hnew ▸ hx))
      · exact Or.inl (List.mem_cons_of_mem _ hx)
    have h2 := Nat.mul_le_mul_right (G.support.length + 2) h1
    rw [Nat.succ_mul] at h2
    have h3 : newNbs.length ≤ G.support.length := hnew ▸ neighbors_length_le G nb
    omega

/-- Embedding of dfs_traversal (7tutorial.py lines 35-57): visited and
traversal_order start empty, dfs(start) marks start visited, appends it and
iterates over G.neighbors(start); the loop above carries on the recursion. -/
def dfs_traversal (G : Graph) (start : Nat) : Except PyError (List Nat) :=
  match G.nbrsE start with
  | .error e => .error e
  | .ok nbs => dfsLoop G [nbs] [start] [start]

/-- Embedding of the while-loop of bfs_traversal (7tutorial.py lines 74-82):
pop the queue front; if unvisited, mark it visited, append it to the order
and enqueue its neighbours that are not yet visited (the visited set at that
point already holds the popped node).  The neighbour enumeration is the
fallible networkx call. -/
def bfsLoop (G : Graph) (queue visited order : List Nat) :
    Except PyError (List Nat) :=
  match queue with
  | [] => .ok order
  | node :: rest =>
    if node ∈ visited then bfsLoop G rest visited order
    else
      match h : G.nbrsE node with
      | .error e => .error e
      | .ok nbs =>
        bfsLoop G (rest ++ nbs.filter fun x => decide (x ∉ node :: visited))
          (node :: visited) (order ++ [node])
termination_by unseen G queue visited * (G.support.length + 2) + queue.length
decreasing_by
  · simp only [List.length_cons]
    have h1 : unseen G rest visited ≤ unseen G (node :: rest) visited :=
      unseen_le G (fun x hx => Or.inl (List.mem_cons_of_mem _ hx))
    have h2 := Nat.mul_le_mul_right (G.support.length + 2) h1
    omega
  · simp only [List.length_cons, List.length_append]
    have hnew : nbs = G.neighbors node := (nbrsE_ok h).1
    have h1 : unseen G (rest ++ nbs.filter fun x => decide (x ∉ node :: visited))
        (node :: visited) < unseen G (node :: rest) visited := by
      apply unseen_lt G (by assumption) (List.mem_cons_self _ _)
      intro x hx
      rcases List.mem_append.mp hx with hx | hx
      · exact Or.inl (List.mem_cons_of_mem _ hx)
      · exact Or.inr (mem_support_of_mem_neighbors G (hnew ▸ List.mem_of_mem_filter hx))
    have h2 := Nat.mul_le_mul_right (G.support.length + 2) h1
    rw [Nat.succ_mul] at h2
    have h3 : (nbs.filter fun x => decide (x ∉ node :: visited)).length ≤
        G.support.length :=
      le_trans (hnew ▸ List.length_filter_le _ _) (neighbors_length_le G node)
    omega

/-- Embedding of bfs_traversal (7tutorial.py lines 59-83): visited and
traversal_order start empty and the queue starts as deque([start]). -/
def bfs_traversal (G : Graph) (start : Nat) : Except PyError (List Nat) :=
  bfsLoop G [start] [] []

/-!  Shortest-path search.  The script delegates path search to the graph
store (nx.shortest_path); the spec treats this as an external capability that
returns a minimum-edge-count path, raises NodeNotFound when an endpoint is
absent (message "Either source s or target t is not in G") and NetworkXNoPath
when no path exists, and returns [source] when source equals target.  We
embed that capability as breadth-first search by layers: reachN G a k is the
list of nodes reachable from a in at most k steps, the first layer containing
the target gives the distance, and pathToAux reconstructs a path backwards
through the layers. -/

/-- Reachability along stored neighbour links, the specification-side notion
of "node x is reachable from s". -/
def Reachable (G : Graph) (s x : Nat) : Prop :=
  Relation.ReflTransGen (fun u v => v ∈ G.neighbors u) s x

/-- One breadth-first expansion: the input nodes together with all their
neighbours, deduplicated. -/
def stepSet (G : Graph) (s : List Nat) : List Nat :=
  (s ++ s.flatMap G.neighbors).dedup

/-- Nodes reachable from a in at most k steps. -/
def reachN (G : Graph) (a : Nat) : Nat → List Nat
  | 0 => [a]
  | k + 1 => stepSet G (reachN G a k)

/-- Stabilisation bound for the layer iteration: the number of distinct
identifiers the layers can ever contain. -/
def reachBound (G : Graph) (a : Nat) : Nat := ((a :: G.support).toFinset).card

/-- Saturated layer: the nodes reachable from a (proved below to coincide
with Reachable). -/
def reachSet (G : Graph) (a : Nat) : List Nat := reachN G a (reachBound G a)

/-- First index at or after k, within fuel steps, satisfying p. -/
def firstHit (p : Nat → Bool) : Nat → Nat → Option Nat
  | _, 0 => none
  | k, fuel + 1 => if p k then some k else firstHit p (k + 1) fuel

/-- Backwards path reconstruction through the layers: if b already appears
in the previous layer, recurse there; otherwise pick the first node of the
previous layer having b as neighbour and extend its path by b. -/
def pathToAux (G : Graph) (a : Nat) : Nat → Nat → List Nat
  | 0, _ => [a]
  | k + 1, b =>
    if b ∈ reachN G a k then pathToAux G a k b
    else
      match (reachN G a k).find? fun p => decide (b ∈ G.neighbors p) with
      | some p => pathToAux G a k p ++ [b]
      | none => []

/-- Outcome of the graph store's path-search capability. -/
inductive NxPathResult where
  | found (path : List Nat)
  | noPath
  | nodeNotFound (msg : String)
deriving DecidableEq

/-- Message of networkx NodeNotFound for shortest-path search. -/
def nodeNotFoundMsg (source target : Nat) : String :=
  "Either source " ++ (toString source ++ (" or target " ++ (toString target ++ " is not in G")))

/-- Embedding of the graph store's nx.shortest_path(G, source, target)
capability for unweighted graphs: NodeNotFound when source or target is not
in G, otherwise a minimum-edge-count path found by breadth-first layer
search, or NoPath when the target is in no layer. -/
def nx_shortest_path (G : Graph) (source target : Nat) : NxPathResult :=
  if source ∉ G.nodes ∨ target ∉ G.nodes then
    .nodeNotFound (nodeNotFoundMsg source target)
  else
    match firstHit (fun k => decide (target ∈ reachN G source k)) 0
        (reachBound G source + 1) with
    | some d => .found (pathToAux G source d target)
    | none => .noPath

/-- Embedding of find_shortest_path (7tutorial.py lines 85-103): return the
path found by nx.shortest_path; on NetworkXNoPath return []; on NodeNotFound
e raise ValueError("Simpul tidak ditemukan: " followed by e's message). -/
def find_shortest_path (G : Graph) (source target : Nat) :
    Except PyError (List Nat) :=
  match nx_shortest_path G source target with
  | .found p => .ok p
  | .noPath => .ok []
  | .nodeNotFound m => .error (.valueError ("Simpul tidak ditemukan: " ++ m))

/-- Walk in the graph from a to b: a nonempty node sequence starting at a,
ending at b, each consecutive pair linked by a stored neighbour entry. -/
def isWalkFrom (G : Graph) (a b : Nat) (l : List Nat) : Prop :=
  l ≠ [] ∧ l.head? = some a ∧ l.getLast? = some b ∧
    l.Chain' fun u v => v ∈ G.neighbors u

/-!  Correctness of the traversals: with a well-formed graph (every stored
neighbour is itself a node, the invariant networkx maintains) and an existing
start node, both traversals succeed and visit exactly the reachable nodes,
each exactly once. -/

/-- Well-formedness invariant of the adjacency structure, maintained by
networkx: every member of a neighbour list is a node of the graph. -/
def GraphWF (G : Graph) : Prop := ∀ p ∈ G.adj, ∀ v ∈ p.2, v ∈ G.nodes

instance : DecidablePred GraphWF := fun G =>
  inferInstanceAs (Decidable (∀ p ∈ G.adj, ∀ v ∈ p.2, v ∈ G.nodes))

theorem GraphWF.mem_nodes_of_mem_neighbors {G : Graph} (hwf : GraphWF G)
    {u v : Nat} (hv : v ∈ G.neighbors u) : v ∈ G.nodes := by
  cases h : G.adj.find? fun p => decide (p.1 = u) with
  | none =>
    have he : G.neighbors u = [] := by unfold Graph.neighbors; rw [h]; rfl
    rw [he] at hv; cases hv
  | some p =>
    have he : G.neighbors u = p.2 := by unfold Graph.neighbors; rw [h]; rfl
    rw [he] at hv
    exact hwf p (List.mem_of_find?_eq_some h) v hv

theorem reachable_refl (G : Graph) (s : Nat) : Reachable G s s :=
  Relation.ReflTransGen.refl

theorem reachable_step {G : Graph} {s u v : Nat} (h : Reachable G s u)
    (hv : v ∈ G.neighbors u) : Reachable G s v := h.tail hv

theorem reachable_mem_closed {G : Graph} {s : Nat} {V : List Nat} (hs : s ∈ V)
    (hcl : ∀ v ∈ V, ∀ y ∈ G.neighbors v, y ∈ V) {x : Nat}
    (h : Reachable G s x) : x ∈ V := by
  induction h with
  | refl => exact hs
  | tail hab hbc ih => exact hcl _ ih _ hbc

theorem dfsLoop_nil (G : Graph) (v o : List Nat) : dfsLoop G [] v o = .ok o := by
  rw [dfsLoop]

theorem dfsLoop_pop (G : Graph) (rest : List (List Nat)) (v o : List Nat) :
    dfsLoop G ([] :: rest) v o = dfsLoop G rest v o := by
  rw [dfsLoop]

theorem dfsLoop_skip (G : Graph) {nb : Nat} (nbs : List Nat)
    (rest : List (List Nat)) {v : List Nat} (o : List Nat) (h : nb ∈ v) :
    dfsLoop G ((nb :: nbs) :: rest) v o = dfsLoop G (nbs :: rest) v o := by
  rw [dfsLoop]; rw [if_pos h]

theorem dfsLoop_err (G : Graph) {nb : Nat} (nbs : List Nat)
    (rest : List (List Nat)) {v : List Nat} (o : List Nat) {e : PyError}
    (h : nb ∉ v) (he : G.nbrsE nb = .error e) :
    dfsLoop G ((nb :: nbs) :: rest) v o = .error e := by
  rw [dfsLoop]; rw [if_neg h]
  split <;> rename_i heq
  · rw [he] at heq; exact (Except.error.injEq _ _ ▸ heq.symm : _ = _) ▸ rfl
  · rw [he] at heq; cases heq

theorem dfsLoop_expand (G : Graph) {nb : Nat} (nbs : List Nat)
    (rest : List (List Nat)) {v : List Nat} (o : List Nat) {newNbs : List Nat}
    (h : nb ∉ v) (hok : G.nbrsE nb = .ok newNbs) :
    dfsLoop G ((nb :: nbs) :: rest) v o =
      dfsLoop G (newNbs :: nbs :: rest) (nb :: v) (o ++ [nb]) := by
  rw [dfsLoop]; rw [if_neg h]
  split <;> rename_i heq
  · rw [hok] at heq; cases heq
  · rw [hok] at heq
    cases heq
    rfl

/-- Invariant of the dfs call-stack loop: all pending neighbours are nodes
and reachable from the start, visited nodes are reachable, the visited set
and the output order hold the same nodes, the order has no duplicates, the
start is visited, and every neighbour of a visited node is either visited or
still pending. -/
structure DfsInv (G : Graph) (s : Nat) (frames : List (List Nat))
    (visited order : List Nat) : Prop where
  frames_nodes : ∀ x ∈ frames.flatten, x ∈ G.nodes
  frames_reach : ∀ x ∈ frames.flatten, Reachable G s x
  visited_reach : ∀ x ∈ visited, Reachable G s x
  visited_order : ∀ x, x ∈ visited ↔ x ∈ order
  order_nodup : order.Nodup
  start_visited : s ∈ visited
  closed : ∀ v ∈ visited, ∀ y ∈ G.neighbors v, y ∈ visited ∨ y ∈ frames.flatten

theorem dfsLoop_spec (G : Graph) (s : Nat) (hwf : GraphWF G)
    (frames : List (List Nat)) (visited order : List Nat) :
    DfsInv G s frames visited order →
    ∃ res, dfsLoop G frames visited order = .ok (order ++ res) ∧
      (order ++ res).Nodup ∧ ∀ x, (x ∈ order ++ res ↔ Reachable G s x) := by
  induction frames, visited, order using dfsLoop.induct G with
  | case1 visited order =>
    intro hinv
    refine ⟨[], by rw [dfsLoop_nil, List.append_nil], by simpa using hinv.order_nodup, ?_⟩
    intro x
    rw [List.append_nil]
    constructor
    · intro hx
      exact hinv.visited_reach x ((hinv.visited_order x).mpr hx)
    · intro hx
      refine (hinv.visited_order x).mp
        (reachable_mem_closed hinv.start_visited ?_ hx)
      intro v hv y hy
      rcases hinv.closed v hv y hy with h | h
      · exact h
      · simp at h
  | case2 visited order rest ih =>
    intro hinv
    have hinv' : DfsInv G s rest visited order := by
      refine ⟨?_, ?_, hinv.visited_reach, hinv.visited_order, hinv.order_nodup,
        hinv.start_visited, ?_⟩
      · intro x hx; exact hinv.frames_nodes x (by simpa using hx)
      · intro x hx; exact hinv.frames_reach x (by simpa using hx)
      · intro v hv y hy
        rcases hinv.closed v hv y hy with h | h
        · exact Or.inl h
        · exact Or.inr (by simpa using h)
    obtain ⟨res, h1, h2, h3⟩ := ih hinv'
    exact ⟨res, by rw [dfsLoop_pop]; exact h1, h2, h3⟩
  | case3 visited order nb nbs rest hnb ih =>
    intro hinv
    have hflat : ∀ x, x ∈ (nbs :: rest).flatten → x ∈ ((nb :: nbs) :: rest).flatten := by
      intro x hx
      simp only [List.flatten_cons] at hx ⊢
      rcases List.mem_append.mp hx with h | h
      · exact List.mem_append.mpr (Or.inl (List.mem_cons_of_mem _ h))
      · exact List.mem_append.mpr (Or.inr h)
    have hinv' : DfsInv G s (nbs :: rest) visited order := by
      refine ⟨fun x hx => hinv.frames_nodes x (hflat x hx),
        fun x hx => hinv.frames_reach x (hflat x hx),
        hinv.visited_reach, hinv.visited_order, hinv.order_nodup,
        hinv.start_visited, ?_⟩
      intro v hv y hy
      rcases hinv.closed v hv y hy with h | h
      · exact Or.inl h
      · simp only [List.flatten_cons] at h ⊢
        rcases List.mem_append.mp h with h' | h'
        · rcases List.mem_cons.mp h' with h'' | h''
          · exact Or.inl (h'' ▸ hnb)
          · exact Or.inr (List.mem_append.mpr (Or.inl h''))
        · exact Or.inr (List.mem_append.mpr (Or.inr h'))
    obtain ⟨res, h1, h2, h3⟩ := ih hinv'
    exact ⟨res, by rw [dfsLoop_skip _ _ _ _ hnb]; exact h1, h2, h3⟩
  | case4 visited order nb nbs rest hnb e he =>
    intro hinv
    exfalso
    have hmem : nb ∈ ((nb :: nbs) :: rest).flatten := by
      simp [List.flatten_cons]
    have hn : nb ∈ G.nodes := hinv.frames_nodes nb hmem
    rw [Graph.nbrsE, if_pos hn] at he
    cases he
  | case5 visited order nb nbs rest hnb newNbs hok ih =>
    intro hinv
    have hnew : newNbs = G.neighbors nb := (nbrsE_ok hok).1
    have hmem : nb ∈ ((nb :: nbs) :: rest).flatten := by
      simp [List.flatten_cons]
    have hreach_nb : Reachable G s nb := hinv.frames_reach nb hmem
    have hnborder : nb ∉ order := fun h => hnb ((hinv.visited_order nb).mpr h)
    have hflat_aux : ∀ {x : Nat}, x ∈ (nbs :: rest).flatten →
        x ∈ ((nb :: nbs) :: rest).flatten := by
      intro x hx
      simp only [List.flatten_cons] at hx ⊢
      rcases List.mem_append.mp hx with h | h
      · exact List.mem_append.mpr (Or.inl (List.mem_cons_of_mem _ h))
      · exact List.mem_append.mpr (Or.inr h)
    have hinv' : DfsInv G s (newNbs :: nbs :: rest) (nb :: visited) (order ++ [nb]) := by
      refine ⟨?_, ?_, ?_, ?_, ?_, List.mem_cons_of_mem _ hinv.start_visited, ?_⟩
      · intro x hx
        simp only [List.flatten_cons] at hx
        rcases List.mem_append.mp hx with h | h
        · exact hwf.mem_nodes_of_mem_neighbors (hnew ▸ h)
        · exact hinv.frames_nodes x (hflat_aux h)
      · intro x hx
        simp only [List.flatten_cons] at hx
        rcases List.mem_append.mp hx with h | h
        · exact reachable_step hreach_nb (hnew ▸ h)
        · exact hinv.frames_reach x (hflat_aux h)
      · intro x hx
        rcases List.mem_cons.mp hx with h | h
        · exact h ▸ hreach_nb
        · exact hinv.visited_reach x h
      · intro x
        rw [List.mem_cons, List.mem_append, List.mem_singleton, hinv.visited_order x]
        tauto
      · rw [List.nodup_append]
        exact ⟨hinv.order_nodup, List.nodup_singleton _,
          fun a ha hb => hnborder ((List.mem_singleton.mp hb) ▸ ha)⟩
      · intro v hv y hy
        rcases List.mem_cons.mp hv with h | h
        · subst h
          refine Or.inr ?_
          simp only [List.flatten_cons]
          exact List.mem_append.mpr (Or.inl (hnew ▸ hy))
        · rcases hinv.closed v h y hy with h' | h'
          · exact Or.inl (List.mem_cons_of_mem _ h')
          · simp only [List.flatten_cons] at h' ⊢
            rcases List.mem_append.mp h' with h'' | h''
            · rcases List.mem_cons.mp h'' with h3 | h3
              · exact Or.inl (h3 ▸ List.mem_cons_self _ _)
              · exact Or.inr (List.mem_append.mpr (Or.inr (List.mem_append.mpr (Or.inl h3))))
            · exact Or.inr (List.mem_append.mpr (Or.inr (List.mem_append.mpr (Or.inr h''))))
    obtain ⟨res, h1, h2, h3⟩ := ih hinv'
    refine ⟨nb :: res, ?_, ?_, ?_⟩
    · rw [dfsLoop_expand _ _ _ _ hnb hok, h1]
      rw [List.append_assoc]
      rfl
    · rw [show order ++ nb :: res = (order ++ [nb]) ++ res by simp]
      exact h2
    · intro x
      rw [show order ++ nb :: res = (order ++ [nb]) ++ res by simp]
      exact h3 x

theorem dfs_traversal_ok (G : Graph) (s : Nat) (hwf : GraphWF G)
    (hs : s ∈ G.nodes) :
    ∃ res, dfs_traversal G s = .ok (s :: res) ∧ (s :: res).Nodup ∧
      ∀ x, (x ∈ s :: res ↔ Reachable G s x) := by
  have hstep : dfs_traversal G s = dfsLoop G [G.neighbors s] [s] [s] := by
    unfold dfs_traversal
    rw [Graph.nbrsE, if_pos hs]
  have hinv : DfsInv G s [G.neighbors s] [s] [s] := by
    refine ⟨?_, ?_, ?_, fun x => Iff.rfl, List.nodup_singleton s,
      List.mem_singleton_self s, ?_⟩
    · intro x hx
      exact hwf.mem_nodes_of_mem_neighbors (by simpa using hx)
    · intro x hx
      exact reachable_step (reachable_refl G s) (by simpa using hx)
    · intro x hx
      rw [List.mem_singleton.mp hx]
      exact reachable_refl G s
    · intro v hv y hy
      rw [List.mem_singleton.mp hv] at hy
      exact Or.inr (by simpa using hy)
  obtain ⟨res, h1, h2, h3⟩ := dfsLoop_spec G s hwf _ _ _ hinv
  refine ⟨res, ?_, by simpa using h2, fun x => by simpa using h3 x⟩
  rw [hstep, h1]
  rfl

theorem bfsLoop_nil (G : Graph) (v o : List Nat) : bfsLoop G [] v o = .ok o := by
  rw [bfsLoop]

theorem bfsLoop_skip (G : Graph) {node : Nat} (rest : List Nat)
    {v : List Nat} (o : List Nat) (h : node ∈ v) :
    bfsLoop G (node :: rest) v o = bfsLoop G rest v o := by
  rw [bfsLoop]; rw [if_pos h]

theorem bfsLoop_err (G : Graph) {node : Nat} (rest : List Nat)
    {v : List Nat} (o : List Nat) {e : PyError}
    (h : node ∉ v) (he : G.nbrsE node = .error e) :
    bfsLoop G (node :: rest) v o = .error e := by
  rw [bfsLoop]; rw [if_neg h]
  split <;> rename_i heq
  · rw [he] at heq
    cases heq
    rfl
  · rw [he] at heq; cases heq

theorem bfsLoop_expand (G : Graph) {node : Nat} (rest : List Nat)
    {v : List Nat} (o : List Nat) {newNbs : List Nat}
    (h : node ∉ v) (hok : G.nbrsE node = .ok newNbs) :
    bfsLoop G (node :: rest) v o =
      bfsLoop G (rest ++ newNbs.filter fun x => decide (x ∉ node :: v))
        (node :: v) (o ++ [node]) := by
  rw [bfsLoop]; rw [if_neg h]
  split <;> rename_i heq
  · rw [hok] at heq; cases heq
  · rw [hok] at heq
    cases heq
    rfl

/-- Invariant of the bfs while-loop: all queued nodes are nodes of the graph
and reachable from the start, visited nodes are reachable, the visited set
and the output order hold the same nodes, the order has no duplicates, the
start is visited or still queued, and every neighbour of a visited node is
either visited or still queued. -/
structure BfsInv (G : Graph) (s : Nat) (queue visited order : List Nat) :
    Prop where
  queue_nodes : ∀ x ∈ queue, x ∈ G.nodes
  queue_reach : ∀ x ∈ queue, Reachable G s x
  visited_reach : ∀ x ∈ visited, Reachable G s x
  visited_order : ∀ x, x ∈ visited ↔ x ∈ order
  order_nodup : order.Nodup
  start_avail : s ∈ visited ∨ s ∈ queue
  closed : ∀ v ∈ visited, ∀ y ∈ G.neighbors v, y ∈ visited ∨ y ∈ queue

theorem bfsLoop_spec (G : Graph) (s : Nat) (hwf : GraphWF G)
    (queue visited order : List Nat) :
    BfsInv G s queue visited order →
    ∃ res, bfsLoop G queue visited order = .ok (order ++ res) ∧
      (order ++ res).Nodup ∧ ∀ x, (x ∈ order ++ res ↔ Reachable G s x) := by
  induction queue, visited, order using bfsLoop.induct G with
  | case1 visited order =>
    intro hinv
    refine ⟨[], by rw [bfsLoop_nil, List.append_nil], by simpa using hinv.order_nodup, ?_⟩
    intro x
    rw [List.append_nil]
    constructor
    · intro hx
      exact hinv.visited_reach x ((hinv.visited_order x).mpr hx)
    · intro hx
      have hs : s ∈ visited := by
        rcases hinv.start_avail with h | h
        · exact h
        · cases h
      refine (hinv.visited_order x).mp
        (reachable_mem_closed hs ?_ hx)
      intro v hv y hy
      rcases hinv.closed v hv y hy with h | h
      · exact h
      · cases h
  | case2 visited order node rest hnode ih =>
    intro hinv
    have hinv' : BfsInv G s rest visited order := by
      refine ⟨fun x hx => hinv.queue_nodes x (List.mem_cons_of_mem _ hx),
        fun x hx => hinv.queue_reach x (List.mem_cons_of_mem _ hx),
        hinv.visited_reach, hinv.visited_order, hinv.order_nodup, ?_, ?_⟩
      · rcases hinv.start_avail with h | h
        · exact Or.inl h
        · rcases List.mem_cons.mp h with h' | h'
          · exact Or.inl (h' ▸ hnode)
          · exact Or.inr h'
      · intro v hv y hy
        rcases hinv.closed v hv y hy with h | h
        · exact Or.inl h
        · rcases List.mem_cons.mp h with h' | h'
          · exact Or.inl (h' ▸ hnode)
          · exact Or.inr h'
    obtain ⟨res, h1, h2, h3⟩ := ih hinv'
    exact ⟨res, by rw [bfsLoop_skip _ _ _ hnode]; exact h1, h2, h3⟩
  | case3 visited order node rest hnode e he =>
    intro hinv
    exfalso
    have hn : node ∈ G.nodes := hinv.queue_nodes node (List.mem_cons_self _ _)
    rw [Graph.nbrsE, if_pos hn] at he
    cases he
  | case4 visited order node rest hnode newNbs hok ih =>
    intro hinv
    have hnew : newNbs = G.neighbors node := (nbrsE_ok hok).1
    have hreach_node : Reachable G s node :=
      hinv.queue_reach node (List.mem_cons_self _ _)
    have hnodeorder : node ∉ order := fun h => hnode ((hinv.visited_order node).mpr h)
    have hinv' : BfsInv G s
        (rest ++ List.filter (fun x => decide (x ∉ node :: visited)) newNbs)
        (node :: visited) (order ++ [node]) := by
      refine ⟨?_, ?_, ?_, ?_, ?_, ?_, ?_⟩
      · intro x hx
        rcases List.mem_append.mp hx with h | h
        · exact hinv.queue_nodes x (List.mem_cons_of_mem _ h)
        · exact hwf.mem_nodes_of_mem_neighbors (hnew ▸ List.mem_of_mem_filter h)
      · intro x hx
        rcases List.mem_append.mp hx with h | h
        · exact hinv.queue_reach x (List.mem_cons_of_mem _ h)
        · exact reachable_step hreach_node (hnew ▸ List.mem_of_mem_filter h)
      · intro x hx
        rcases List.mem_cons.mp hx with h | h
        · exact h ▸ hreach_node
        · exact hinv.visited_reach x h
      · intro x
        rw [List.mem_cons, List.mem_append, List.mem_singleton, hinv.visited_order x]
        tauto
      · rw [List.nodup_append]
        exact ⟨hinv.order_nodup, List.nodup_singleton _,
          fun a ha hb => hnodeorder ((List.mem_singleton.mp hb) ▸ ha)⟩
      · rcases hinv.start_avail with h | h
        · exact Or.inl (List.mem_cons_of_mem _ h)
        · rcases List.mem_cons.mp h with h' | h'
          · exact Or.inl (h' ▸ List.mem_cons_self _ _)
          · exact Or.inr (List.mem_append.mpr (Or.inl h'))
      · intro v hv y hy
        rcases List.mem_cons.mp hv with h | h
        · by_cases hvis : y ∈ node :: visited
          · exact Or.inl hvis
          · refine Or.inr (List.mem_append.mpr (Or.inr ?_))
            rw [List.mem_filter]
            exact ⟨hnew ▸ (h ▸ hy), by simpa using hvis⟩
        · rcases hinv.closed v h y hy with h' | h'
          · exact Or.inl (List.mem_cons_of_mem _ h')
          · rcases List.mem_cons.mp h' with h'' | h''
            · exact Or.inl (h'' ▸ List.mem_cons_self _ _)
            · exact Or.inr (List.mem_append.mpr (Or.inl h''))
    obtain ⟨res, h1, h2, h3⟩ := ih hinv'
    refine ⟨node :: res, ?_, ?_, ?_⟩
    · rw [bfsLoop_expand _ _ _ hnode hok, h1]
      rw [List.append_assoc]
      rfl
    · rw [show order ++ node :: res = (order ++ [node]) ++ res by simp]
      exact h2
    · intro x
      rw [show order ++ node :: res = (order ++ [node]) ++ res by simp]
      exact h3 x

theorem bfs_traversal_ok (G : Graph) (s : Nat) (hwf : GraphWF G)
    (hs : s ∈ G.nodes) :
    ∃ res, bfs_traversal G s = .ok (s :: res) ∧ (s :: res).Nodup ∧
      ∀ x, (x ∈ s :: res ↔ Reachable G s x) := by
  have hok : G.nbrsE s = .ok (G.neighbors s) := by
    rw [Graph.nbrsE, if_pos hs]
  have hstep : bfs_traversal G s =
      bfsLoop G ((G.neighbors s).filter fun x => decide (x ∉ s :: ([] : List Nat)))
        [s] [s] := by
    unfold bfs_traversal
    rw [bfsLoop_expand G [] [] (by simp) hok]
    rfl
  have hinv : BfsInv G s
      ((G.neighbors s).filter fun x => decide (x ∉ s :: ([] : List Nat)))
      [s] [s] := by
    refine ⟨?_, ?_, ?_, fun x => Iff.rfl, List.nodup_singleton s,
      Or.inl (List.mem_singleton_self s), ?_⟩
    · intro x hx
      exact hwf.mem_nodes_of_mem_neighbors (List.mem_of_mem_filter hx)
    · intro x hx
      exact reachable_step (reachable_refl G s) (List.mem_of_mem_filter hx)
    · intro x hx
      rw [List.mem_singleton.mp hx]
      exact reachable_refl G s
    · intro v hv y hy
      rw [List.mem_singleton.mp hv] at hy
      by_cases hvis : y ∈ s :: ([] : List Nat)
      · exact Or.inl (by simpa using hvis)
      · refine Or.inr ?_
        rw [List.mem_filter]
        exact ⟨hy, by simpa using hvis⟩
  obtain ⟨res, h1, h2, h3⟩ := bfsLoop_spec G s hwf _ _ _ hinv
  refine ⟨res, ?_, by simpa using h2, fun x => by simpa using h3 x⟩
  rw [hstep, h1]
  rfl

/-!  Layer lemmas: reachN G a k holds exactly the endpoints of walks from a
with at most k edges, and it saturates at reachBound, giving a decidable
characterisation of reachability. -/

theorem mem_stepSet {G : Graph} {S : List Nat} {x : Nat} :
    x ∈ stepSet G S ↔ x ∈ S ∨ ∃ p ∈ S, x ∈ G.neighbors p := by
  simp [stepSet, List.mem_dedup, List.mem_append, List.mem_flatMap]

theorem self_mem_reachN (G : Graph) (a : Nat) (k : Nat) : a ∈ reachN G a k := by
  induction k with
  | zero => simp [reachN]
  | succ k ih => exact mem_stepSet.mpr (Or.inl ih)

theorem reachN_subset_succ {G : Graph} {a x : Nat} {k : Nat}
    (h : x ∈ reachN G a k) : x ∈ reachN G a (k + 1) :=
  mem_stepSet.mpr (Or.inl h)

theorem reachN_mono {G : Graph} {a x : Nat} {j k : Nat} (hjk : j ≤ k)
    (h : x ∈ reachN G a j) : x ∈ reachN G a k := by
  induction k with
  | zero => exact Nat.le_zero.mp hjk ▸ h
  | succ k ih =>
    rcases Nat.lt_or_ge j (k + 1) with h' | h'
    · exact reachN_subset_succ (ih (Nat.lt_succ_iff.mp h'))
    · exact (Nat.le_antisymm hjk h') ▸ h

theorem mem_reachN_succ_of_nbr {G : Graph} {a p b : Nat} {k : Nat}
    (hp : p ∈ reachN G a k) (hb : b ∈ G.neighbors p) :
    b ∈ reachN G a (k + 1) :=
  mem_stepSet.mpr (Or.inr ⟨p, hp, hb⟩)

theorem reachable_of_mem_reachN {G : Graph} {a x : Nat} {k : Nat}
    (h : x ∈ reachN G a k) : Reachable G a x := by
  induction k generalizing x with
  | zero =>
    have hx : x = a := by simpa [reachN] using h
    rw [hx]
    exact reachable_refl G a
  | succ k ih =>
    rcases mem_stepSet.mp h with h' | ⟨p, hp, hx⟩
    · exact ih h'
    · exact reachable_step (ih hp) hx

theorem exists_reachN_of_reachable {G : Graph} {a x : Nat}
    (h : Reachable G a x) : ∃ k, x ∈ reachN G a k := by
  induction h with
  | refl => exact ⟨0, by simp [reachN]⟩
  | tail hab hbc ih =>
    obtain ⟨k, hk⟩ := ih
    exact ⟨k + 1, mem_reachN_succ_of_nbr hk hbc⟩

theorem reachN_subset_univ {G : Graph} {a x : Nat} {k : Nat}
    (h : x ∈ reachN G a k) : x ∈ a :: G.support := by
  induction k generalizing x with
  | zero =>
    have hx : x = a := by simpa [reachN] using h
    exact hx ▸ List.mem_cons_self _ _
  | succ k ih =>
    rcases mem_stepSet.mp h with h' | ⟨p, _, hx⟩
    · exact ih h'
    · exact List.mem_cons_of_mem _ (mem_support_of_mem_neighbors G hx)

theorem stepSet_mono {G : Graph} {S T : List Nat}
    (h : ∀ x ∈ S, x ∈ T) {x : Nat} (hx : x ∈ stepSet G S) : x ∈ stepSet G T := by
  rcases mem_stepSet.mp hx with h' | ⟨p, hp, hx'⟩
  · exact mem_stepSet.mpr (Or.inl (h x h'))
  · exact mem_stepSet.mpr (Or.inr ⟨p, h p hp, hx'⟩)

theorem reachN_stab {G : Graph} {a : Nat} {k : Nat}
    (hstab : ∀ x ∈ reachN G a (k + 1), x ∈ reachN G a k) (m : Nat) :
    ∀ x ∈ reachN G a (k + m), x ∈ reachN G a k := by
  induction m with
  | zero => intro x hx; exact hx
  | succ m ih =>
    intro x hx
    have : x ∈ reachN G a (k + 1) := by
      have heq : k + (m + 1) = (k + m) + 1 := by omega
      rw [heq] at hx
      exact stepSet_mono ih hx
    exact hstab x this

theorem reachN_exists_stab (G : Graph) (a : Nat) :
    ∃ k, k < reachBound G a ∧ ∀ x ∈ reachN G a (k + 1), x ∈ reachN G a k := by
  by_contra hno
  push_neg at hno
  have hgrow : ∀ k, k ≤ reachBound G a →
      k + 1 ≤ (reachN G a k).toFinset.card := by
    intro k
    induction k with
    | zero =>
      intro _
      have : a ∈ (reachN G a 0).toFinset :=
        List.mem_toFinset.mpr (self_mem_reachN G a 0)
      exact Finset.card_pos.mpr ⟨a, this⟩
    | succ k ih =>
      intro hk
      obtain ⟨x, hx1, hx2⟩ := hno k (by omega)
      have hsub : (reachN G a k).toFinset ⊆ (reachN G a (k + 1)).toFinset := by
        intro y hy
        exact List.mem_toFinset.mpr (reachN_subset_succ (List.mem_toFinset.mp hy))
      have hss : (reachN G a k).toFinset ⊂ (reachN G a (k + 1)).toFinset := by
        refine (Finset.ssubset_iff_of_subset hsub).mpr ?_
        exact ⟨x, List.mem_toFinset.mpr hx1, fun h => hx2 (List.mem_toFinset.mp h)⟩
      have := Finset.card_lt_card hss
      have := ih (by omega)
      omega
  have hcap : (reachN G a (reachBound G a)).toFinset.card ≤ reachBound G a := by
    refine Finset.card_le_card ?_
    intro y hy
    exact List.mem_toFinset.mpr (reachN_subset_univ (List.mem_toFinset.mp hy))
  have := hgrow (reachBound G a) (le_refl _)
  omega

theorem mem_reachSet_of_reachN {G : Graph} {a x : Nat} {m : Nat}
    (h : x ∈ reachN G a m) : x ∈ reachSet G a := by
  obtain ⟨k, hk, hstab⟩ := reachN_exists_stab G a
  rcases Nat.lt_or_ge m (reachBound G a) with h' | h'
  · exact reachN_mono (Nat.le_of_lt h') h
  · have hm : m = k + (m - k) := by omega
    have : x ∈ reachN G a k := reachN_stab hstab (m - k) x (hm ▸ h)
    exact reachN_mono (Nat.le_of_lt hk) this

theorem mem_reachSet_iff {G : Graph} {a x : Nat} :
    x ∈ reachSet G a ↔ Reachable G a x := by
  constructor
  · exact fun h => reachable_of_mem_reachN h
  · intro h
    obtain ⟨k, hk⟩ := exists_reachN_of_reachable h
    exact mem_reachSet_of_reachN hk

theorem firstHit_some {p : Nat → Bool} {k fuel d : Nat}
    (h : firstHit p k fuel = some d) :
    p d = true ∧ k ≤ d ∧ ∀ j, k ≤ j → j < d → p j = false := by
  induction fuel generalizing k with
  | zero => cases h
  | succ fuel ih =>
    rw [firstHit] at h
    by_cases hp : p k
    · rw [if_pos hp] at h
      cases h
      exact ⟨hp, le_refl _, fun j hj1 hj2 => absurd hj1 (by omega)⟩
    · rw [if_neg hp] at h
      obtain ⟨h1, h2, h3⟩ := ih h
      refine ⟨h1, by omega, ?_⟩
      intro j hj1 hj2
      rcases Nat.eq_or_lt_of_le hj1 with he | hl
      · exact he ▸ (Bool.not_eq_true _).mp hp
      · exact h3 j hl hj2

theorem firstHit_hits {p : Nat → Bool} {k fuel m : Nat}
    (hm : p m = true) (hk : k ≤ m) (hfuel : m < k + fuel) :
    ∃ d, firstHit p k fuel = some d := by
  induction fuel generalizing k with
  | zero => omega
  | succ fuel ih =>
    rw [firstHit]
    by_cases hp : p k
    · exact ⟨k, if_pos hp⟩
    · rw [if_neg hp]
      have hne : k ≠ m := fun he => hp (he ▸ hm)
      exact ih (by omega) (by omega)

theorem firstHit_none {p : Nat → Bool} {k fuel : Nat}
    (h : ∀ j, k ≤ j → p j = false) : firstHit p k fuel = none := by
  induction fuel generalizing k with
  | zero => rfl
  | succ fuel ih =>
    rw [firstHit]
    rw [if_neg ((Bool.not_eq_true _).mpr (h k (le_refl _)))]
    exact ih fun j hj => h j (by omega)

theorem pathToAux_spec {G : Graph} {a : Nat} (k : Nat) {b : Nat}
    (hb : b ∈ reachN G a k) :
    isWalkFrom G a b (pathToAux G a k b) ∧ (pathToAux G a k b).length ≤ k + 1 := by
  induction k generalizing b with
  | zero =>
    have hba : b = a := by simpa [reachN] using hb
    subst hba
    exact ⟨⟨List.cons_ne_nil _ _, rfl, rfl, List.chain'_singleton _⟩, le_refl _⟩
  | succ k ih =>
    rw [pathToAux]
    by_cases hmem : b ∈ reachN G a k
    · rw [if_pos hmem]
      obtain ⟨hw, hl⟩ := ih hmem
      exact ⟨hw, by omega⟩
    · rw [if_neg hmem]
      rcases mem_stepSet.mp hb with h' | ⟨p, hp, hnbr⟩
      · exact absurd h' hmem
      · have hsome : ((reachN G a k).find? fun q => decide (b ∈ G.neighbors q)).isSome := by
          rw [List.find?_isSome]
          exact ⟨p, hp, decide_eq_true hnbr⟩
        obtain ⟨p₀, hfind⟩ := Option.isSome_iff_exists.mp hsome
        rw [hfind]
        show isWalkFrom G a b (pathToAux G a k p₀ ++ [b]) ∧
          (pathToAux G a k p₀ ++ [b]).length ≤ k + 1 + 1
        have hp₀mem : p₀ ∈ reachN G a k := List.mem_of_find?_eq_some hfind
        have hpred := List.find?_some hfind
        have hp₀nbr : b ∈ G.neighbors p₀ := by simpa using hpred
        obtain ⟨⟨hne, hhead, hlast, hchain⟩, hlen⟩ := ih hp₀mem
        refine ⟨⟨?_, ?_, ?_, ?_⟩, ?_⟩
        · simp
        · cases hw : pathToAux G a k p₀ with
          | nil => exact absurd hw hne
          | cons y ys =>
            rw [hw] at hhead
            simpa using hhead
        · rw [List.getLast?_concat]
        · rw [List.chain'_append]
          refine ⟨hchain, List.chain'_singleton _, ?_⟩
          intro x hx y hy
          rw [hlast] at hx
          cases hx
          cases hy
          exact hp₀nbr
        · rw [List.length_append, List.length_singleton]
          omega

theorem mem_reachN_of_walk {G : Graph} {a : Nat} {w : List Nat} :
    ∀ {b : Nat}, isWalkFrom G a b w → b ∈ reachN G a (w.length - 1) := by
  induction w using List.reverseRecOn with
  | nil => intro b hw; exact absurd rfl hw.1
  | append_singleton l x ih =>
    intro b hw
    obtain ⟨hne, hhead, hlast, hchain⟩ := hw
    have hxb : x = b := by
      rw [List.getLast?_concat] at hlast
      exact Option.some_injective _ hlast
    subst hxb
    cases l with
    | nil =>
      have hab : x = a := by simpa using hhead
      subst hab
      simp [reachN]
    | cons y l' =>
      have hlne : (y :: l') ≠ ([] : List Nat) := List.cons_ne_nil _ _
      obtain ⟨hchl, _, hlink⟩ := List.chain'_append.mp hchain
      obtain ⟨z, hz⟩ := Option.isSome_iff_exists.mp
        (by rw [List.getLast?_isSome]; exact hlne : ((y :: l').getLast?).isSome)
      have hnbr : x ∈ G.neighbors z := hlink z hz x rfl
      have hwalk : isWalkFrom G a z (y :: l') := by
        refine ⟨hlne, ?_, hz, hchl⟩
        simpa using hhead
      have hzmem := ih hwalk
      have hlen : (y :: l').length - 1 + 1 = (y :: l').length := by
        simp
      have := mem_reachN_succ_of_nbr hzmem hnbr
      rw [hlen] at this
      simpa using this

theorem nodes_decision {G : Graph} {a b : Nat} (ha : a ∈ G.nodes)
    (hb : b ∈ G.nodes) : ¬(a ∉ G.nodes ∨ b ∉ G.nodes) := by
  intro h
  rcases h with h | h
  · exact h ha
  · exact h hb

theorem find_shortest_path_reachable (G : Graph) (a b : Nat)
    (ha : a ∈ G.nodes) (hb : b ∈ G.nodes) (hr : Reachable G a b) :
    ∃ p, find_shortest_path G a b = .ok p ∧ isWalkFrom G a b p ∧
      ∀ w, isWalkFrom G a b w → p.length ≤ w.length := by
  have hmem : b ∈ reachSet G a := mem_reachSet_iff.mpr hr
  have hpm : (fun k => decide (b ∈ reachN G a k)) (reachBound G a) = true :=
    decide_eq_true hmem
  obtain ⟨d, hd⟩ := @firstHit_hits (fun k => decide (b ∈ reachN G a k)) 0
    (reachBound G a + 1) (reachBound G a) hpm (Nat.zero_le _) (by omega)
  obtain ⟨hpd, _, hmin⟩ := firstHit_some hd
  have hbd : b ∈ reachN G a d := of_decide_eq_true hpd
  obtain ⟨hw, hlen⟩ := pathToAux_spec d hbd
  refine ⟨pathToAux G a d b, ?_, hw, ?_⟩
  · unfold find_shortest_path nx_shortest_path
    rw [if_neg (nodes_decision ha hb), hd]
  · intro w hww
    have hmemw : b ∈ reachN G a (w.length - 1) := mem_reachN_of_walk hww
    have hdle : d ≤ w.length - 1 := by
      by_contra hlt
      have := hmin (w.length - 1) (Nat.zero_le _) (by omega)
      rw [decide_eq_true hmemw] at this
      cases this
    have hwne : w.length ≥ 1 := by
      cases w with
      | nil => exact absurd rfl hww.1
      | cons y ys => simp
    omega

theorem find_shortest_path_same (G : Graph) (a : Nat) (ha : a ∈ G.nodes) :
    find_shortest_path G a a = .ok [a] := by
  have hfh : firstHit (fun k => decide (a ∈ reachN G a k)) 0 (reachBound G a + 1) =
      some 0 := by
    rw [firstHit]
    rw [if_pos (decide_eq_true (self_mem_reachN G a 0))]
  unfold find_shortest_path nx_shortest_path
  rw [if_neg (nodes_decision ha ha), hfh]
  rfl

theorem find_shortest_path_ok_of_mem (G : Graph) (a b : Nat)
    (ha : a ∈ G.nodes) (hb : b ∈ G.nodes) :
    ∃ l, find_shortest_path G a b = .ok l := by
  unfold find_shortest_path nx_shortest_path
  rw [if_neg (nodes_decision ha hb)]
  cases hfh : firstHit (fun k => decide (b ∈ reachN G a k)) 0 (reachBound G a + 1) with
  | none => exact ⟨[], rfl⟩
  | some d => exact ⟨pathToAux G a d b, rfl⟩

theorem find_shortest_path_absent (G : Graph) (a b : Nat)
    (h : a ∉ G.nodes ∨ b ∉ G.nodes) :
    find_shortest_path G a b =
      .error (.valueError ("Simpul tidak ditemukan: " ++ nodeNotFoundMsg a b)) := by
  unfold find_shortest_path nx_shortest_path
  rw [if_pos h]

theorem find_shortest_path_no_path (G : Graph) (a b : Nat)
    (ha : a ∈ G.nodes) (hb : b ∈ G.nodes) (hnr : ¬Reachable G a b) :
    find_shortest_path G a b = .ok [] := by
  have hfh : firstHit (fun k => decide (b ∈ reachN G a k)) 0 (reachBound G a + 1) =
      none := by
    apply firstHit_none
    intro j _
    rw [decide_eq_false]
    intro hmem
    exact hnr (reachable_of_mem_reachN hmem)
  unfold find_shortest_path nx_shortest_path
  rw [if_neg (nodes_decision ha hb), hfh]

/-!  Degree versus the original edge list.  Specification-side notions: two
ordered pairs denote the same undirected edge when they agree up to swapping,
an edge list is deduplicated by keeping the first occurrence of each
undirected edge, and the incidence count of a node sums, over the
deduplicated list, one per endpoint equal to the node (a self-loop therefore
counts twice), matching the underlying structure's convention. -/

/-- Two ordered pairs denote the same undirected edge. -/
def sameEdge (e f : Nat × Nat) : Prop :=
  (e.1 = f.1 ∧ e.2 = f.2) ∨ (e.1 = f.2 ∧ e.2 = f.1)

instance (e f : Nat × Nat) : Decidable (sameEdge e f) := by
  unfold sameEdge; infer_instance

theorem sameEdge_symm {e f : Nat × Nat} (h : sameEdge e f) : sameEdge f e := by
  rcases h with ⟨h1, h2⟩ | ⟨h1, h2⟩
  · exact Or.inl ⟨h1.symm, h2.symm⟩
  · exact Or.inr ⟨h2.symm, h1.symm⟩

theorem sameEdge_trans {e f g : Nat × Nat} (h1 : sameEdge e f)
    (h2 : sameEdge f g) : sameEdge e g := by
  rcases h1 with ⟨a1, a2⟩ | ⟨a1, a2⟩ <;> rcases h2 with ⟨b1, b2⟩ | ⟨b1, b2⟩
  · exact Or.inl ⟨a1.trans b1, a2.trans b2⟩
  · exact Or.inr ⟨a1.trans b1, a2.trans b2⟩
  · exact Or.inr ⟨a1.trans b2, a2.trans b1⟩
  · exact Or.inl ⟨a1.trans b2, a2.trans b1⟩

/-- Membership of an undirected edge in an edge list. -/
def edgeMem (es : List (Nat × Nat)) (e : Nat × Nat) : Prop :=
  ∃ f ∈ es, sameEdge e f

instance (es : List (Nat × Nat)) (e : Nat × Nat) : Decidable (edgeMem es e) := by
  unfold edgeMem; infer_instance

theorem edgeMem_append_singleton {es : List (Nat × Nat)} {e g : Nat × Nat} :
    edgeMem (es ++ [e]) g ↔ edgeMem es g ∨ sameEdge g e := by
  unfold edgeMem
  simp [List.mem_append, or_and_right, exists_or]

/-- Deduplication of an edge list, keeping the first occurrence of each
undirected edge (networkx collapses repeated edges). -/
def dedupEdges (es : List (Nat × Nat)) : List (Nat × Nat) :=
  es.foldl (fun acc e => if edgeMem acc e then acc else acc ++ [e]) []

theorem dedupEdges_append (es : List (Nat × Nat)) (e : Nat × Nat) :
    dedupEdges (es ++ [e]) =
      if edgeMem (dedupEdges es) e then dedupEdges es
      else dedupEdges es ++ [e] := by
  unfold dedupEdges
  rw [List.foldl_append]
  rfl

theorem dedupEdges_edgeMem (es : List (Nat × Nat)) :
    ∀ g, edgeMem (dedupEdges es) g ↔ edgeMem es g := by
  induction es using List.reverseRecOn with
  | nil => intro g; rfl
  | append_singleton es e ih =>
    intro g
    rw [dedupEdges_append]
    by_cases hd : edgeMem (dedupEdges es) e
    · rw [if_pos hd]
      rw [edgeMem_append_singleton, ih g]
      constructor
      · exact Or.inl
      · intro h
        rcases h with h | h
        · exact h
        · obtain ⟨f, hf, hsf⟩ := (ih e).mp hd
          exact ⟨f, hf, sameEdge_trans h hsf⟩
    · rw [if_neg hd]
      rw [edgeMem_append_singleton, edgeMem_append_singleton, ih g]

/-- Number of incidences of a node in the deduplicated edge list: one per
endpoint equal to the node, so a self-loop contributes two. -/
def incidences (es : List (Nat × Nat)) (n : Nat) : Nat :=
  ((dedupEdges es).map fun e =>
    (if e.1 = n then 1 else 0) + (if e.2 = n then 1 else 0)).sum

theorem incidences_append_dup {es : List (Nat × Nat)} {e : Nat × Nat}
    (h : edgeMem es e) (n : Nat) : incidences (es ++ [e]) n = incidences es n := by
  unfold incidences
  rw [dedupEdges_append, if_pos ((dedupEdges_edgeMem es e).mpr h)]

theorem incidences_append_new {es : List (Nat × Nat)} {e : Nat × Nat}
    (h : ¬edgeMem es e) (n : Nat) :
    incidences (es ++ [e]) n =
      incidences es n + ((if e.1 = n then 1 else 0) + (if e.2 = n then 1 else 0)) := by
  unfold incidences
  rw [dedupEdges_append, if_neg (fun hd => h ((dedupEdges_edgeMem es e).mp hd))]
  rw [List.map_append, List.sum_append]
  rfl

theorem addNode_nodes (G : Graph) (n : Nat) :
    (G.addNode n).nodes = if n ∈ G.nodes then G.nodes else G.nodes ++ [n] := by
  unfold Graph.addNode
  by_cases h : n ∈ G.nodes
  · rw [if_pos h, if_pos h]
  · rw [if_neg h, if_neg h]
    unfold Graph.nodes
    simp

theorem mem_addNode_self (G : Graph) (n : Nat) : n ∈ (G.addNode n).nodes := by
  rw [addNode_nodes]
  by_cases h : n ∈ G.nodes
  · rw [if_pos h]; exact h
  · rw [if_neg h]; simp

theorem mem_addNode_of_mem (G : Graph) {m : Nat} (n : Nat) (h : m ∈ G.nodes) :
    m ∈ (G.addNode n).nodes := by
  rw [addNode_nodes]
  by_cases h' : n ∈ G.nodes
  · rw [if_pos h']; exact h
  · rw [if_neg h']; exact List.mem_append.mpr (Or.inl h)

theorem addNode_neighbors (G : Graph) (n m : Nat) :
    (G.addNode n).neighbors m = G.neighbors m := by
  unfold Graph.addNode
  by_cases h : n ∈ G.nodes
  · rw [if_pos h]
  · rw [if_neg h]
    cases hf : G.adj.find? fun p => decide (p.1 = m) with
    | some p =>
      have h1 : (Graph.mk (G.adj ++ [(n, [])])).neighbors m = p.2 := by
        unfold Graph.neighbors
        show ((List.find? _ (G.adj ++ [(n, [])])).map Prod.snd).getD [] = p.2
        rw [List.find?_append, hf]
        rfl
      have h2 : G.neighbors m = p.2 := by unfold Graph.neighbors; rw [hf]; rfl
      rw [h1, h2]
    | none =>
      have h2 : G.neighbors m = [] := by unfold Graph.neighbors; rw [hf]; rfl
      have h1 : (Graph.mk (G.adj ++ [(n, [])])).neighbors m = [] := by
        unfold Graph.neighbors
        show ((List.find? _ (G.adj ++ [(n, [])])).map Prod.snd).getD [] = []
        rw [List.find?_append, hf]
        by_cases hm : n = m
        · simp [List.find?, hm]
        · simp [List.find?, hm]
      rw [h1, h2]

theorem addHalf_nodes (G : Graph) (u v : Nat) :
    (G.addHalf u v).nodes = G.nodes := by
  unfold Graph.addHalf Graph.nodes
  simp only [List.map_map]
  apply List.map_congr_left
  intro p _
  by_cases h : p.1 = u <;> simp [h]

theorem addHalf_neighbors (G : Graph) {u : Nat} (v m : Nat) (hu : u ∈ G.nodes) :
    (G.addHalf u v).neighbors m =
      if m = u then
        (if v ∈ G.neighbors u then G.neighbors u else G.neighbors u ++ [v])
      else G.neighbors m := by
  have hfun : (fun q : Nat × List Nat => decide (q.1 = m)) ∘
      (fun p : Nat × List Nat =>
        if p.1 = u then (p.1, if v ∈ p.2 then p.2 else p.2 ++ [v]) else p) =
      fun p : Nat × List Nat => decide (p.1 = m) := by
    funext p
    by_cases h : p.1 = u <;> simp [h]
  show ((((G.adj.map _).find? fun q => decide (q.1 = m)).map Prod.snd).getD []) = _
  rw [List.find?_map, hfun]
  cases hf : G.adj.find? fun p => decide (p.1 = m) with
  | none =>
    have he : G.neighbors m = [] := by unfold Graph.neighbors; rw [hf]; rfl
    by_cases hm : m = u
    · exfalso
      obtain ⟨p, hp, hp1⟩ := List.mem_map.mp (hm ▸ hu)
      have : (G.adj.find? fun q => decide (q.1 = m)).isSome :=
        List.find?_isSome.mpr ⟨p, hp, decide_eq_true (hm ▸ hp1)⟩
      rw [hf] at this
      cases this
    · rw [if_neg hm, he]
      rfl
  | some q =>
    have hpred := List.find?_some hf
    have hq1 : q.1 = m := by simpa using hpred
    have he : G.neighbors m = q.2 := by unfold Graph.neighbors; rw [hf]; rfl
    by_cases hm : m = u
    · have hq1u : q.1 = u := hq1.trans hm
      have heu : G.neighbors u = q.2 := hm ▸ he
      rw [if_pos hm, heu]
      simp only [Option.map_map, Option.getD]
      show ((if q.1 = u then (q.1, if v ∈ q.2 then q.2 else q.2 ++ [v]) else q).2) = _
      rw [if_pos hq1u]
    · rw [if_neg hm, he]
      simp only [Option.map_map, Option.getD]
      show ((if q.1 = u then (q.1, if v ∈ q.2 then q.2 else q.2 ++ [v]) else q).2) = q.2
      rw [if_neg (hq1 ▸ fun h => hm h : ¬q.1 = u)]

theorem edgeMem_swap {es : List (Nat × Nat)} {a b : Nat} :
    edgeMem es (a, b) ↔ edgeMem es (b, a) := by
  constructor <;>
    exact fun ⟨f, hf, hs⟩ => ⟨f, hf, by
      rcases hs with ⟨h1, h2⟩ | ⟨h1, h2⟩
      · exact Or.inr ⟨h2, h1⟩
      · exact Or.inl ⟨h2, h1⟩⟩

theorem addEdge_neighbors (G : Graph) (u v : Nat)
    (hsym : v ∈ G.neighbors u ↔ u ∈ G.neighbors v) (m : Nat) :
    (G.addEdge u v).neighbors m =
      if v ∈ G.neighbors u then G.neighbors m
      else if u = v then
        (if m = u then G.neighbors u ++ [u] else G.neighbors m)
      else if m = u then G.neighbors u ++ [v]
      else if m = v then G.neighbors v ++ [u]
      else G.neighbors m := by
  have hG1 : ∀ x, ((G.addNode u).addNode v).neighbors x = G.neighbors x :=
    fun x => (addNode_neighbors _ v x).trans (addNode_neighbors G u x)
  have hu1 : u ∈ ((G.addNode u).addNode v).nodes :=
    mem_addNode_of_mem _ v (mem_addNode_self G u)
  have hv1 : v ∈ ((G.addNode u).addNode v).nodes := mem_addNode_self _ v
  have h2 : ∀ x, (((G.addNode u).addNode v).addHalf u v).neighbors x =
      if x = u then
        (if v ∈ G.neighbors u then G.neighbors u else G.neighbors u ++ [v])
      else G.neighbors x := by
    intro x
    rw [addHalf_neighbors _ v x hu1, hG1 x, hG1 u]
  have hv2 : v ∈ (((G.addNode u).addNode v).addHalf u v).nodes := by
    rw [addHalf_nodes]; exact hv1
  show ((((G.addNode u).addNode v).addHalf u v).addHalf v u).neighbors m = _
  rw [addHalf_neighbors _ u m hv2]
  simp only [h2]
  by_cases hvu : v ∈ G.neighbors u <;> by_cases huv : u = v <;>
    by_cases hmv : m = v <;> by_cases hmu : m = u <;>
    simp_all [List.mem_append]

theorem create_graph_append (es : List (Nat × Nat)) (e : Nat × Nat) :
    create_graph (es ++ [e]) = (create_graph es).addEdge e.1 e.2 := by
  unfold create_graph
  rw [List.foldl_append]
  rfl

theorem create_graph_spec (es : List (Nat × Nat)) :
    (∀ u v, v ∈ (create_graph es).neighbors u ↔ edgeMem es (u, v)) ∧
    (∀ n, (create_graph es).degreeOf n = incidences es n) := by
  induction es using List.reverseRecOn with
  | nil =>
    constructor
    · intro u v
      constructor
      · intro h
        have he : (create_graph []).neighbors u = [] := rfl
        rw [he] at h
        cases h
      · rintro ⟨f, hf, _⟩
        cases hf
    · intro n
      rfl
  | append_singleton es e ih =>
    obtain ⟨ihN, ihD⟩ := ih
    have hsym : e.2 ∈ (create_graph es).neighbors e.1 ↔
        e.1 ∈ (create_graph es).neighbors e.2 := by
      rw [ihN, ihN]
      exact edgeMem_swap
    have hchar := addEdge_neighbors (create_graph es) e.1 e.2 hsym
    rw [create_graph_append]
    by_cases hd : edgeMem es (e.1, e.2)
    · have hv : e.2 ∈ (create_graph es).neighbors e.1 := (ihN e.1 e.2).mpr hd
      have hAll : ∀ m, ((create_graph es).addEdge e.1 e.2).neighbors m =
          (create_graph es).neighbors m := fun m => by rw [hchar m, if_pos hv]
      constructor
      · intro u v
        rw [hAll u, ihN, edgeMem_append_singleton]
        constructor
        · exact Or.inl
        · rintro (h | h)
          · exact h
          · obtain ⟨f, hf, hsf⟩ := hd
            exact ⟨f, hf, sameEdge_trans h (by rwa [Prod.mk.eta] at hsf)⟩
      · intro n
        have hd' : edgeMem es e := by rwa [Prod.mk.eta] at hd
        rw [incidences_append_dup hd']
        unfold Graph.degreeOf
        rw [hAll n]
        exact ihD n
    · have hv : e.2 ∉ (create_graph es).neighbors e.1 :=
        fun h => hd ((ihN e.1 e.2).mp h)
      have hd' : ¬edgeMem es e := fun h => hd (by rwa [Prod.mk.eta])
      by_cases hee : e.1 = e.2
      · have hAll : ∀ m, ((create_graph es).addEdge e.1 e.2).neighbors m =
            if m = e.1 then (create_graph es).neighbors e.1 ++ [e.1]
            else (create_graph es).neighbors m := fun m => by
          rw [hchar m, if_neg hv, if_pos hee]
        have hind : e.1 ∉ (create_graph es).neighbors e.1 := hee.symm ▸ hv
        constructor
        · intro u v
          rw [hAll u, edgeMem_append_singleton, ← ihN u v]
          by_cases hu : u = e.1
          · rw [if_pos hu, hu]
            simp only [List.mem_append, List.mem_singleton]
            constructor
            · rintro (h | h)
              · exact Or.inl h
              · exact Or.inr (Or.inl ⟨rfl, hee ▸ h⟩)
            · rintro (h | (⟨_, h2⟩ | ⟨_, h2⟩))
              · exact Or.inl h
              · exact Or.inr (hee ▸ h2)
              · exact Or.inr h2
          · rw [if_neg hu]
            constructor
            · exact Or.inl
            · rintro (h | (⟨h1, _⟩ | ⟨h1, _⟩))
              · exact h
              · exact absurd h1 hu
              · exact absurd (h1.trans hee.symm) hu
        · intro n
          rw [incidences_append_new hd']
          unfold Graph.degreeOf
          rw [hAll n]
          have hdn := ihD n
          unfold Graph.degreeOf at hdn
          by_cases hn : n = e.1
          · rw [if_pos hn]
            rw [List.length_append, List.length_singleton]
            have h1 : (if n ∈ (create_graph es).neighbors e.1 ++ [e.1] then 1 else 0)
                = 1 := by
              rw [if_pos (List.mem_append.mpr (Or.inr (by simp [hn])))]
            have h2 : (if n ∈ (create_graph es).neighbors n then 1 else 0) = 0 := by
              rw [if_neg (hn ▸ hind)]
            have h3 : (if e.1 = n then 1 else 0) = 1 := by rw [if_pos hn.symm]
            have h4 : (if e.2 = n then 1 else 0) = 1 := by
              rw [if_pos ((hee.symm.trans hn.symm : e.2 = n))]
            rw [h1, h3, h4, ← hn]
            rw [h2] at hdn
            omega
          · rw [if_neg hn]
            have h3 : (if e.1 = n then 1 else 0) = 0 := by
              rw [if_neg (fun h => hn h.symm)]
            have h4 : (if e.2 = n then 1 else 0) = 0 := by
              rw [if_neg (fun h => hn ((hee.trans h).symm ▸ rfl))]
            rw [h3, h4]
            omega
      · have hvu : e.1 ∉ (create_graph es).neighbors e.2 := fun h => hv (hsym.mpr h)
        have hAll : ∀ m, ((create_graph es).addEdge e.1 e.2).neighbors m =
            if m = e.1 then (create_graph es).neighbors e.1 ++ [e.2]
            else if m = e.2 then (create_graph es).neighbors e.2 ++ [e.1]
            else (create_graph es).neighbors m := fun m => by
          rw [hchar m, if_neg hv, if_neg hee]
        constructor
        · intro u v
          rw [hAll u, edgeMem_append_singleton, ← ihN u v]
          by_cases hu : u = e.1
          · rw [if_pos hu, hu]
            simp only [List.mem_append, List.mem_singleton]
            constructor
            · rintro (h | h)
              · exact Or.inl h
              · exact Or.inr (Or.inl ⟨rfl, h⟩)
            · rintro (h | (⟨_, h2⟩ | ⟨h1, h2⟩))
              · exact Or.inl h
              · exact Or.inr h2
              · exact absurd h1 hee
          · rw [if_neg hu]
            by_cases hu2 : u = e.2
            · rw [if_pos hu2, hu2]
              simp only [List.mem_append, List.mem_singleton]
              constructor
              · rintro (h | h)
                · exact Or.inl h
                · exact Or.inr (Or.inr ⟨rfl, h⟩)
              · rintro (h | (⟨h1, _⟩ | ⟨_, h2⟩))
                · exact Or.inl h
                · exact absurd h1.symm hee
                · exact Or.inr h2
            · rw [if_neg hu2]
              constructor
              · exact Or.inl
              · rintro (h | (⟨h1, _⟩ | ⟨h1, _⟩))
                · exact h
                · exact absurd h1 hu
                · exact absurd h1 hu2
        · intro n
          rw [incidences_append_new hd']
          unfold Graph.degreeOf
          rw [hAll n]
          have hdn := ihD n
          unfold Graph.degreeOf at hdn
          by_cases hn : n = e.1
          · rw [if_pos hn]
            rw [List.length_append, List.length_singleton]
            have h1 : (if n ∈ (create_graph es).neighbors e.1 ++ [e.2] then 1 else 0)
                = (if n ∈ (create_graph es).neighbors n then 1 else 0) := by
              have : (n ∈ (create_graph es).neighbors e.1 ++ [e.2]) ↔
                  n ∈ (create_graph es).neighbors n := by
                rw [List.mem_append, List.mem_singleton, hn]
                constructor
                · rintro (h | h)
                  · exact h
                  · exact absurd (hn.trans h : n = e.2).symm
                      (fun hx => hee ((hn ▸ hx : e.2 = e.1)).symm)
                · exact Or.inl
              by_cases hm : n ∈ (create_graph es).neighbors n
              · rw [if_pos (this.mpr hm), if_pos hm]
              · rw [if_neg (fun h => hm (this.mp h)), if_neg hm]
            have h3 : (if e.1 = n then 1 else 0) = 1 := by rw [if_pos hn.symm]
            have h4 : (if e.2 = n then 1 else 0) = 0 := by
              rw [if_neg (fun h => hee (h.trans hn).symm)]
            rw [h1, h3, h4, ← hn]
            omega
          · rw [if_neg hn]
            by_cases hn2 : n = e.2
            · rw [if_pos hn2]
              rw [List.length_append, List.length_singleton]
              have h1 : (if n ∈ (create_graph es).neighbors e.2 ++ [e.1] then 1 else 0)
                  = (if n ∈ (create_graph es).neighbors n then 1 else 0) := by
                have : (n ∈ (create_graph es).neighbors e.2 ++ [e.1]) ↔
                    n ∈ (create_graph es).neighbors n := by
                  rw [List.mem_append, List.mem_singleton, hn2]
                  constructor
                  · rintro (h | h)
                    · exact h
                    · exact absurd h.symm hee
                  · exact Or.inl
                by_cases hm : n ∈ (create_graph es).neighbors n
                · rw [if_pos (this.mpr hm), if_pos hm]
                · rw [if_neg (fun h => hm (this.mp h)), if_neg hm]
              have h3 : (if e.1 = n then 1 else 0) = 0 := by
                rw [if_neg (fun h => hn h.symm)]
              have h4 : (if e.2 = n then 1 else 0) = 1 := by rw [if_pos hn2.symm]
              rw [h1, h3, h4, ← hn2]
              omega
            · rw [if_neg hn2]
              have h3 : (if e.1 = n then 1 else 0) = 0 := by
                rw [if_neg (fun h => hn h.symm)]
              have h4 : (if e.2 = n then 1 else 0) = 0 := by
                rw [if_neg (fun h => hn2 h.symm)]
              rw [h3, h4]
              omega

/-!  State-passing embeddings for the frame property.  Each graph-store call
the script makes (membership test, degree lookup, neighbour enumeration,
path search) is a read-only query of the networkx graph; we model each
primitive as a state transformer returning the graph state after the call,
and thread that state through the operations exactly as the script issues
the calls.  The frame theorems then assert that the final graph state equals
the initial one. -/

/-- Membership test (Python: node in G) as a state transformer. -/
def Graph.memberSt (G : Graph) (n : Nat) : Bool × Graph :=
  (decide (n ∈ G.nodes), G)

/-- Degree lookup (G.degree[n]) as a state transformer. -/
def Graph.degreeSt (G : Graph) (n : Nat) : Nat × Graph := (G.degreeOf n, G)

/-- Neighbour enumeration (G.neighbors(n)) as a state transformer. -/
def Graph.nbrsSt (G : Graph) (n : Nat) : Except PyError (List Nat) × Graph :=
  (G.nbrsE n, G)

/-- Path search (nx.shortest_path(G, s, t)) as a state transformer. -/
def Graph.nxPathSt (G : Graph) (s t : Nat) : NxPathResult × Graph :=
  (nx_shortest_path G s t, G)

/-- State-passing get_degree: the membership test runs first, then on
success the degree lookup, each threading the graph state. -/
def get_degree_st (G : Graph) (node : Nat) : Except PyError Nat × Graph :=
  let r := G.memberSt node
  if r.1 then
    let d := r.2.degreeSt node
    (.ok d.1, d.2)
  else
    (.error (.valueError ("Simpul " ++ (toString node ++ " tidak ada dalam graf."))), r.2)

/-- State-passing dfs loop: every neighbour enumeration threads the graph
state into the rest of the traversal. -/
def dfsLoopSt (G : Graph) (frames : List (List Nat)) (visited order : List Nat) :
    Except PyError (List Nat) × Graph :=
  match frames with
  | [] => (.ok order, G)
  | [] :: rest => dfsLoopSt G rest visited order
  | (nb :: nbs) :: rest =>
    if nb ∈ visited then dfsLoopSt G (nbs :: rest) visited order
    else
      match h : (G.nbrsSt nb).1 with
      | .error e => (.error e, (G.nbrsSt nb).2)
      | .ok newNbs =>
        dfsLoopSt (G.nbrsSt nb).2 (newNbs :: nbs :: rest) (nb :: visited)
          (order ++ [nb])
termination_by
  unseen G frames.flatten visited * (G.support.length + 2)
    + frames.flatten.length + frames.length
decreasing_by
  · simp only [List.flatten_cons, List.nil_append, List.length_cons]
    omega
  · simp only [List.flatten_cons, List.cons_append, List.length_cons, List.length_append]
    have h1 : unseen G (nbs ++ rest.flatten) visited ≤
        unseen G (nb :: (nbs ++ rest.flatten)) visited :=
      unseen_le G (fun x hx => Or.inl (List.mem_cons_of_mem _ hx))
    have h2 := Nat.mul_le_mul_right (G.support.length + 2) h1
    omega
  · simp only [Graph.nbrsSt, List.flatten_cons, List.cons_append, List.length_cons,
      List.length_append]
    have hok : G.nbrsE nb = .ok newNbs := h
    have hnew : newNbs = G.neighbors nb := (nbrsE_ok hok).1
    have h1 : unseen G (newNbs ++ (nbs ++ rest.flatten)) (nb :: visited) <
        unseen G (nb :: (nbs ++ rest.flatten)) visited := by
      apply unseen_lt G (by assumption) (List.mem_cons_self _ _)
      intro x hx
      rcases List.mem_append.mp hx with hx | hx
      · exact Or.inr (mem_support_of_mem_neighbors G (hnew ▸ hx))
      · exact Or.inl (List.mem_cons_of_mem _ hx)
    have h2 := Nat.mul_le_mul_right (G.support.length + 2) h1
    rw [Nat.succ_mul] at h2
    have h3 : newNbs.length ≤ G.support.length := hnew ▸ neighbors_length_le G nb
    omega

/-- State-passing dfs_traversal. -/
def dfs_traversal_st (G : Graph) (start : Nat) : Except PyError (List Nat) × Graph :=
  match h : (G.nbrsSt start).1 with
  | .error e => (.error e, (G.nbrsSt start).2)
  | .ok nbs => dfsLoopSt (G.nbrsSt start).2 [nbs] [start] [start]

/-- State-passing bfs loop. -/
def bfsLoopSt (G : Graph) (queue visited order : List Nat) :
    Except PyError (List Nat) × Graph :=
  match queue with
  | [] => (.ok order, G)
  | node :: rest =>
    if node ∈ visited then bfsLoopSt G rest visited order
    else
      match h : (G.nbrsSt node).1 with
      | .error e => (.error e, (G.nbrsSt node).2)
      | .ok nbs =>
        bfsLoopSt (G.nbrsSt node).2
          (rest ++ nbs.filter fun x => decide (x ∉ node :: visited))
          (node :: visited) (order ++ [node])
termination_by unseen G queue visited * (G.support.length + 2) + queue.length
decreasing_by
  · simp only [List.length_cons]
    have h1 : unseen G rest visited ≤ unseen G (node :: rest) visited :=
      unseen_le G (fun x hx => Or.inl (List.mem_cons_of_mem _ hx))
    have h2 := Nat.mul_le_mul_right (G.support.length + 2) h1
    omega
  · simp only [Graph.nbrsSt, List.length_cons, List.length_append]
    have hok : G.nbrsE node = .ok nbs := h
    have hnew : nbs = G.neighbors node := (nbrsE_ok hok).1
    have h1 : unseen G (rest ++ nbs.filter fun x => decide (x ∉ node :: visited))
        (node :: visited) < unseen G (node :: rest) visited := by
      apply unseen_lt G (by assumption) (List.mem_cons_self _ _)
      intro x hx
      rcases List.mem_append.mp hx with hx | hx
      · exact Or.inl (List.mem_cons_of_mem _ hx)
      · exact Or.inr (mem_support_of_mem_neighbors G (hnew ▸ List.mem_of_mem_filter hx))
    have h2 := Nat.mul_le_mul_right (G.support.length + 2) h1
    rw [Nat.succ_mul] at h2
    have h3 : (nbs.filter fun x => decide (x ∉ node :: visited)).length ≤
        G.support.length :=
      le_trans (hnew ▸ List.length_filter_le _ _) (neighbors_length_le G node)
    omega

/-- State-passing bfs_traversal. -/
def bfs_traversal_st (G : Graph) (start : Nat) : Except PyError (List Nat) × Graph :=
  bfsLoopSt G [start] [] []

/-- State-passing find_shortest_path. -/
def find_shortest_path_st (G : Graph) (source target : Nat) :
    Except PyError (List Nat) × Graph :=
  match (G.nxPathSt source target).1 with
  | .found p => (.ok p, (G.nxPathSt source target).2)
  | .noPath => (.ok [], (G.nxPathSt source target).2)
  | .nodeNotFound m =>
    (.error (.valueError ("Simpul tidak ditemukan: " ++ m)),
      (G.nxPathSt source target).2)

theorem dfsLoopSt_graph (G : Graph) (frames : List (List Nat))
    (visited order : List Nat) : (dfsLoopSt G frames visited order).2 = G := by
  induction G, frames, visited, order using dfsLoopSt.induct with
  | case1 G visited order => rw [dfsLoopSt]
  | case2 G visited order rest ih => rw [dfsLoopSt]; exact ih
  | case3 G visited order nb nbs rest hnb ih =>
    rw [dfsLoopSt]
    rw [if_pos hnb]
    exact ih
  | case4 G visited order nb nbs rest hnb e he =>
    rw [dfsLoopSt]
    rw [if_neg hnb]
    split <;> rename_i heq
    · rfl
    · rw [he] at heq; cases heq
  | case5 G visited order nb nbs rest hnb newNbs hok ih =>
    rw [dfsLoopSt]
    rw [if_neg hnb]
    split <;> rename_i heq
    · rw [hok] at heq; cases heq
    · rw [hok] at heq
      cases heq
      exact ih

theorem bfsLoopSt_graph (G : Graph) (queue visited order : List Nat) :
    (bfsLoopSt G queue visited order).2 = G := by
  induction G, queue, visited, order using bfsLoopSt.induct with
  | case1 G visited order => rw [bfsLoopSt]
  | case2 G visited order node rest hnode ih =>
    rw [bfsLoopSt]
    rw [if_pos hnode]
    exact ih
  | case3 G visited order node rest hnode e he =>
    rw [bfsLoopSt]
    rw [if_neg hnode]
    split <;> rename_i heq
    · rfl
    · rw [he] at heq; cases heq
  | case4 G visited order node rest hnode newNbs hok ih =>
    rw [bfsLoopSt]
    rw [if_neg hnode]
    split <;> rename_i heq
    · rw [hok] at heq; cases heq
    · rw [hok] at heq
      cases heq
      exact ih

theorem get_degree_st_graph (G : Graph) (n : Nat) : (get_degree_st G n).2 = G := by
  unfold get_degree_st
  by_cases h : (G.memberSt n).1
  · rw [if_pos h]; rfl
  · rw [if_neg h]; rfl


theorem dfs_traversal_st_graph (G : Graph) (s : Nat) :
    (dfs_traversal_st G s).2 = G := by
  unfold dfs_traversal_st
  split
  · rfl
  · exact dfsLoopSt_graph _ _ _ _

theorem bfs_traversal_st_graph (G : Graph) (s : Nat) :
    (bfs_traversal_st G s).2 = G :=
  bfsLoopSt_graph G [s] [] []

theorem find_shortest_path_st_graph (G : Graph) (a b : Nat) :
    (find_shortest_path_st G a b).2 = G := by
  unfold find_shortest_path_st
  split <;> rfl

theorem dfs_traversal_absent (G : Graph) {s : Nat} (h : s ∉ G.nodes) :
    dfs_traversal G s =
      .error (.networkXError ("The node " ++ (toString s ++ " is not in the graph."))) := by
  unfold dfs_traversal
  rw [nbrsE_error h]

theorem bfs_traversal_absent (G : Graph) {s : Nat} (h : s ∉ G.nodes) :
    bfs_traversal G s =
      .error (.networkXError ("The node " ++ (toString s ++ " is not in the graph."))) := by
  unfold bfs_traversal
  exact bfsLoop_err G [] [] (by simp) (nbrsE_error h)

theorem dfs_traversal_isolated (G : Graph) {s : Nat} (hs : s ∈ G.nodes)
    (hiso : G.neighbors s = []) : dfs_traversal G s = .ok [s] := by
  unfold dfs_traversal
  rw [Graph.nbrsE, if_pos hs, hiso]
  show dfsLoop G [[]] [s] [s] = Except.ok [s]
  rw [dfsLoop_pop, dfsLoop_nil]

theorem bfs_traversal_isolated (G : Graph) {s : Nat} (hs : s ∈ G.nodes)
    (hiso : G.neighbors s = []) : bfs_traversal G s = .ok [s] := by
  unfold bfs_traversal
  have hok : G.nbrsE s = .ok [] := by rw [Graph.nbrsE, if_pos hs, hiso]
  rw [bfsLoop_expand G [] [] (by simp) hok]
  simp only [List.filter_nil, List.nil_append]
  rw [bfsLoop_nil]

/-!  The claims.  The concrete graph below is the one test_functions builds
(7tutorial.py lines 122-155). -/

/-- Edge list of the demonstration graph in test_functions. -/
def testEdges : List (Nat × Nat) := [(0, 1), (0, 2), (1, 3), (1, 4), (2, 5), (3, 4)]

/-- Demonstration graph of test_functions. -/
def testGraph : Graph := create_graph testEdges

/-- Disconnected graph used to exercise the no-path case. -/
def twoCompGraph : Graph := create_graph [(0, 1), (2, 3)]

theorem containsStr_here (a b c : String) : containsStr (a ++ (b ++ c)) b :=
  ⟨a, c, rfl⟩

theorem containsStr_of_eq {s t sub : String} (h : s = t)
    (hc : containsStr t sub) : containsStr s sub := h ▸ hc

theorem nodeNotFoundMsg_names_source (source target : Nat) :
    containsStr ("Simpul tidak ditemukan: " ++ nodeNotFoundMsg source target)
      (toString source) := by
  refine containsStr_of_eq ?_
    (containsStr_here ("Simpul tidak ditemukan: " ++ "Either source ")
      (toString source)
      (" or target " ++ (toString target ++ " is not in G")))
  unfold nodeNotFoundMsg
  rw [String.append_assoc]

theorem nodeNotFoundMsg_names_target (source target : Nat) :
    containsStr ("Simpul tidak ditemukan: " ++ nodeNotFoundMsg source target)
      (toString target) := by
  refine containsStr_of_eq ?_
    (containsStr_here
      (("Simpul tidak ditemukan: " ++ "Either source ") ++
        (toString source ++ " or target "))
      (toString target) (" is not in G"))
  unfold nodeNotFoundMsg
  simp only [String.append_assoc]

/-- C1: for every well-formed graph G and start node s in G, dfs_traversal
and bfs_traversal succeed with sequences of equal length, and that common
length equals the number of nodes reachable from s in G (the size of s's
connected component). -/
theorem claim_C1 (G : Graph) (s : Nat) (hwf : GraphWF G) (hs : s ∈ G.nodes) :
    ∃ dl bl, dfs_traversal G s = .ok dl ∧ bfs_traversal G s = .ok bl ∧
      dl.length = bl.length ∧
      dl.length = Set.ncard {x : Nat | Reachable G s x} := by
  obtain ⟨dres, hd1, hd2, hd3⟩ := dfs_traversal_ok G s hwf hs
  obtain ⟨bres, hb1, hb2, hb3⟩ := bfs_traversal_ok G s hwf hs
  have hset : ∀ l : List Nat, l.Nodup → (∀ x, (x ∈ l ↔ Reachable G s x)) →
      l.length = Set.ncard {x : Nat | Reachable G s x} := by
    intro l hnd hiff
    have heq : {x : Nat | Reachable G s x} = ↑l.toFinset := by
      ext x
      simp only [Set.mem_setOf_eq, Finset.coe_insert, List.coe_toFinset,
        Set.mem_setOf_eq, List.mem_toFinset]
      exact (hiff x).symm
    rw [heq, Set.ncard_coe_Finset, List.toFinset_card_of_nodup hnd]
  have hd4 := hset _ hd2 hd3
  have hb4 := hset _ hb2 hb3
  exact ⟨s :: dres, s :: bres, hd1, hb1, hd4.trans hb4.symm, hd4⟩

/-- C1 witness: the demonstration graph with start node 0. -/
theorem claim_C1_witness : GraphWF testGraph ∧ 0 ∈ testGraph.nodes ∧
    (∃ dl bl, dfs_traversal testGraph 0 = .ok dl ∧
      bfs_traversal testGraph 0 = .ok bl ∧ dl.length = bl.length ∧
      dl.length = Set.ncard {x : Nat | Reachable testGraph 0 x}) :=
  ⟨by decide, by decide, claim_C1 testGraph 0 (by decide) (by decide)⟩

/-- C2: find_shortest_path fails with a ValueError naming the missing node
exactly when source or target is absent from G; when both exist but no path
connects them, it succeeds with the empty sequence. -/
theorem claim_C2 (G : Graph) (source target : Nat) :
    ((∃ e, find_shortest_path G source target = .error e) ↔
      (source ∉ G.nodes ∨ target ∉ G.nodes)) ∧
    (source ∉ G.nodes ∨ target ∉ G.nodes →
      find_shortest_path G source target =
        .error (.valueError
          ("Simpul tidak ditemukan: " ++ nodeNotFoundMsg source target)) ∧
      containsStr ("Simpul tidak ditemukan: " ++ nodeNotFoundMsg source target)
        (toString source) ∧
      containsStr ("Simpul tidak ditemukan: " ++ nodeNotFoundMsg source target)
        (toString target)) ∧
    (source ∈ G.nodes → target ∈ G.nodes → ¬Reachable G source target →
      find_shortest_path G source target = .ok []) := by
  refine ⟨⟨?_, ?_⟩, ?_, ?_⟩
  · rintro ⟨e, he⟩
    by_contra hno
    push_neg at hno
    obtain ⟨l, hl⟩ := find_shortest_path_ok_of_mem G source target hno.1 hno.2
    rw [hl] at he
    cases he
  · intro h
    exact ⟨_, find_shortest_path_absent G source target h⟩
  · intro h
    exact ⟨find_shortest_path_absent G source target h,
      nodeNotFoundMsg_names_source source target,
      nodeNotFoundMsg_names_target source target⟩
  · exact find_shortest_path_no_path G source target

/-- C2 witness: absent node 99 on the demonstration graph, and the
disconnected pair (0, 3) on the two-component graph. -/
theorem claim_C2_witness :
    (∃ e, find_shortest_path testGraph 99 0 = .error e) ∧
    find_shortest_path twoCompGraph 0 3 = .ok [] :=
  ⟨(claim_C2 testGraph 99 0).1.mpr (Or.inl (by decide)),
    (claim_C2 twoCompGraph 0 3).2.2 (by decide) (by decide)
      (by rw [← mem_reachSet_iff]; decide)⟩

/-- C3: get_degree fails with a ValueError naming the node exactly when the
node is absent; otherwise it returns the count of edges incident to the node
in the original edge list (duplicates collapsed, a self-loop counted twice,
per the underlying structure's convention); and it leaves the graph state
unchanged. -/
theorem claim_C3 (edges : List (Nat × Nat)) (node : Nat) :
    ((∃ e, get_degree (create_graph edges) node = .error e) ↔
      node ∉ (create_graph edges).nodes) ∧
    (node ∉ (create_graph edges).nodes →
      get_degree (create_graph edges) node =
        .error (.valueError ("Simpul " ++ (toString node ++ " tidak ada dalam graf."))) ∧
      containsStr ("Simpul " ++ (toString node ++ " tidak ada dalam graf."))
        (toString node)) ∧
    (node ∈ (create_graph edges).nodes →
      get_degree (create_graph edges) node = .ok (incidences edges node)) ∧
    (get_degree_st (create_graph edges) node).2 = create_graph edges := by
  refine ⟨⟨?_, ?_⟩, ?_, ?_, get_degree_st_graph _ _⟩
  · rintro ⟨e, he⟩
    intro hmem
    unfold get_degree at he
    rw [if_pos hmem] at he
    cases he
  · intro h
    exact ⟨.valueError ("Simpul " ++ (toString node ++ " tidak ada dalam graf.")),
      by unfold get_degree; rw [if_neg h]⟩
  · intro h
    refine ⟨?_, containsStr_here ("Simpul ") (toString node)
      (" tidak ada dalam graf.")⟩
    unfold get_degree
    rw [if_neg h]
  · intro h
    unfold get_degree
    rw [if_pos h, (create_graph_spec edges).2 node]

/-- C3 witness: node 1 (degree present) and node 99 (absent) on the
demonstration edge list. -/
theorem claim_C3_witness :
    get_degree (create_graph testEdges) 1 = .ok (incidences testEdges 1) ∧
    (∃ e, get_degree (create_graph testEdges) 99 = .error e) :=
  ⟨(claim_C3 testEdges 1).2.2.1 (by decide),
    (claim_C3 testEdges 99).1.mpr (by decide)⟩

/-- C4: for every pair of nodes (a, b) of G with b reachable from a,
find_shortest_path returns a walk from a to b whose node count is at most
that of every walk from a to b; its length minus one is therefore the
minimum number of edges over all walks from a to b. -/
theorem claim_C4 (G : Graph) (a b : Nat) (ha : a ∈ G.nodes) (hb : b ∈ G.nodes)
    (hr : Reachable G a b) :
    ∃ p, find_shortest_path G a b = .ok p ∧ isWalkFrom G a b p ∧
      (∀ w, isWalkFrom G a b w → p.length ≤ w.length) ∧
      (∀ w, isWalkFrom G a b w → p.length - 1 ≤ w.length - 1) := by
  obtain ⟨p, h1, h2, h3⟩ := find_shortest_path_reachable G a b ha hb hr
  exact ⟨p, h1, h2, h3, fun w hw => Nat.sub_le_sub_right (h3 w hw) 1⟩

/-- C4 witness: the reachable pair (0, 4) on the demonstration graph. -/
theorem claim_C4_witness :
    ∃ p, find_shortest_path testGraph 0 4 = .ok p ∧ isWalkFrom testGraph 0 4 p ∧
      (∀ w, isWalkFrom testGraph 0 4 w → p.length ≤ w.length) ∧
      (∀ w, isWalkFrom testGraph 0 4 w → p.length - 1 ≤ w.length - 1) :=
  claim_C4 testGraph 0 4 (by decide) (by decide)
    (by rw [← mem_reachSet_iff]; decide)

/-- C5: for every node a of G, find_shortest_path from a to a returns the
single-element sequence holding a. -/
theorem claim_C5 (G : Graph) (a : Nat) (ha : a ∈ G.nodes) :
    find_shortest_path G a a = .ok [a] :=
  find_shortest_path_same G a ha

/-- C5 witness: node 0 of the demonstration graph. -/
theorem claim_C5_witness : 0 ∈ testGraph.nodes ∧
    find_shortest_path testGraph 0 0 = .ok [0] :=
  ⟨by decide, claim_C5 testGraph 0 (by decide)⟩

/-- C6: for every well-formed graph and existing start node, the sequences
produced by dfs_traversal and bfs_traversal contain no node twice, even in
cyclic graphs. -/
theorem claim_C6 (G : Graph) (s : Nat) (hwf : GraphWF G) (hs : s ∈ G.nodes) :
    ∃ dl bl, dfs_traversal G s = .ok dl ∧ bfs_traversal G s = .ok bl ∧
      dl.Nodup ∧ bl.Nodup := by
  obtain ⟨dres, hd1, hd2, _⟩ := dfs_traversal_ok G s hwf hs
  obtain ⟨bres, hb1, hb2, _⟩ := bfs_traversal_ok G s hwf hs
  exact ⟨s :: dres, s :: bres, hd1, hb1, hd2, hb2⟩

/-- C6 witness: the demonstration graph, which is cyclic (cycle 1-3-4), with
start node 0. -/
theorem claim_C6_witness : GraphWF testGraph ∧ 0 ∈ testGraph.nodes ∧
    (∃ dl bl, dfs_traversal testGraph 0 = .ok dl ∧
      bfs_traversal testGraph 0 = .ok bl ∧ dl.Nodup ∧ bl.Nodup) :=
  ⟨by decide, by decide, claim_C6 testGraph 0 (by decide) (by decide)⟩

/-- C7: for every node s of G with no incident edges (empty neighbour list),
dfs_traversal and bfs_traversal both return the single-element sequence
holding s. -/
theorem claim_C7 (G : Graph) (s : Nat) (hs : s ∈ G.nodes)
    (hiso : G.neighbors s = []) :
    dfs_traversal G s = .ok [s] ∧ bfs_traversal G s = .ok [s] :=
  ⟨dfs_traversal_isolated G hs hiso, bfs_traversal_isolated G hs hiso⟩

/-- C7 witness: a graph holding the single isolated node 7. -/
theorem claim_C7_witness :
    dfs_traversal ⟨[(7, [])]⟩ 7 = .ok [7] ∧
    bfs_traversal ⟨[(7, [])]⟩ 7 = .ok [7] :=
  claim_C7 ⟨[(7, [])]⟩ 7 (by decide) (by decide)

/-- C8: on the graph built from the edge list of test_functions, node 1 has
degree 3; dfs and bfs from 0 each visit all six nodes exactly once starting
with 0; the shortest path from 0 to 4 is [0, 1, 4]; and asking the degree of
99 raises the node-not-found ValueError. -/
theorem claim_C8 :
    get_degree testGraph 1 = .ok 3 ∧
    (∃ dl, dfs_traversal testGraph 0 = .ok dl ∧ dl.Nodup ∧ dl.length = 6 ∧
      dl.head? = some 0 ∧ ∀ x, (x ∈ dl ↔ x ∈ testGraph.nodes)) ∧
    (∃ bl, bfs_traversal testGraph 0 = .ok bl ∧ bl.Nodup ∧ bl.length = 6 ∧
      bl.head? = some 0 ∧ ∀ x, (x ∈ bl ↔ x ∈ testGraph.nodes)) ∧
    find_shortest_path testGraph 0 4 = .ok [0, 1, 4] ∧
    get_degree testGraph 99 =
      .error (.valueError ("Simpul 99 tidak ada dalam graf.")) := by
  have hiff : ∀ x, (x ∈ reachSet testGraph 0 ↔ x ∈ testGraph.nodes) := by
    intro x
    have hfin : (reachSet testGraph 0).toFinset = testGraph.nodes.toFinset := by
      decide
    rw [← List.mem_toFinset, hfin, List.mem_toFinset]
  have hcard : (reachSet testGraph 0).toFinset.card = 6 := by decide
  have hlen : ∀ l : List Nat, l.Nodup → (∀ x, (x ∈ l ↔ Reachable testGraph 0 x)) →
      l.length = 6 ∧ ∀ x, (x ∈ l ↔ x ∈ testGraph.nodes) := by
    intro l hnd hmem
    have hiff2 : ∀ x, (x ∈ l ↔ x ∈ reachSet testGraph 0) := by
      intro x
      rw [hmem x, mem_reachSet_iff]
    have hfin : l.toFinset = (reachSet testGraph 0).toFinset := by
      ext x
      rw [List.mem_toFinset, List.mem_toFinset]
      exact hiff2 x
    refine ⟨?_, fun x => (hiff2 x).trans (hiff x)⟩
    rw [← List.toFinset_card_of_nodup hnd, hfin, hcard]
  refine ⟨by rfl, ?_, ?_, by rfl, by rfl⟩
  · obtain ⟨dres, h1, h2, h3⟩ := dfs_traversal_ok testGraph 0 (by decide) (by decide)
    obtain ⟨hl6, hmem⟩ := hlen _ h2 h3
    exact ⟨0 :: dres, h1, h2, hl6, rfl, hmem⟩
  · obtain ⟨bres, h1, h2, h3⟩ := bfs_traversal_ok testGraph 0 (by decide) (by decide)
    obtain ⟨hl6, hmem⟩ := hlen _ h2 h3
    exact ⟨0 :: bres, h1, h2, hl6, rfl, hmem⟩

/-- C9: all four query operations, run with explicit state threading of every
graph-store call, leave the graph unchanged: the graph state after each call
equals the initial graph, so it has exactly the same nodes and the same
adjacency (edges) as before. -/
theorem claim_C9 (G : Graph) (n s t a b : Nat) :
    (get_degree_st G n).2 = G ∧
    (dfs_traversal_st G s).2 = G ∧
    (bfs_traversal_st G t).2 = G ∧
    (find_shortest_path_st G a b).2 = G ∧
    (get_degree_st G n).2.nodes = G.nodes ∧
    (get_degree_st G n).2.adj = G.adj ∧
    (dfs_traversal_st G s).2.nodes = G.nodes ∧
    (dfs_traversal_st G s).2.adj = G.adj ∧
    (bfs_traversal_st G t).2.nodes = G.nodes ∧
    (bfs_traversal_st G t).2.adj = G.adj ∧
    (find_shortest_path_st G a b).2.nodes = G.nodes ∧
    (find_shortest_path_st G a b).2.adj = G.adj := by
  have h1 := get_degree_st_graph G n
  have h2 := dfs_traversal_st_graph G s
  have h3 := bfs_traversal_st_graph G t
  have h4 := find_shortest_path_st_graph G a b
  exact ⟨h1, h2, h3, h4, by rw [h1], by rw [h1], by rw [h2], by rw [h2],
    by rw [h3], by rw [h3], by rw [h4], by rw [h4]⟩

/-- C10: with a start node absent from the graph, neither traversal returns
a result: both fail with the NetworkXError propagated from the underlying
neighbour enumeration, not with the node-not-found ValueError that
get_degree and find_shortest_path raise. -/
theorem claim_C10 (G : Graph) (s : Nat) (h : s ∉ G.nodes) :
    dfs_traversal G s =
      .error (.networkXError ("The node " ++ (toString s ++ " is not in the graph."))) ∧
    bfs_traversal G s =
      .error (.networkXError ("The node " ++ (toString s ++ " is not in the graph."))) ∧
    (∀ l, dfs_traversal G s ≠ .ok l) ∧
    (∀ l, bfs_traversal G s ≠ .ok l) ∧
    (∀ m, dfs_traversal G s ≠ .error (.valueError m)) ∧
    (∀ m, bfs_traversal G s ≠ .error (.valueError m)) := by
  have hd := dfs_traversal_absent G h
  have hb := bfs_traversal_absent G h
  refine ⟨hd, hb, ?_, ?_, ?_, ?_⟩
  · intro l hl
    rw [hd] at hl
    cases hl
  · intro l hl
    rw [hb] at hl
    cases hl
  · intro m hm
    rw [hd] at hm
    cases hm
  · intro m hm
    rw [hb] at hm
    cases hm

/-- C10 witness: absent start node 99 on the demonstration graph. -/
theorem claim_C10_witness :
    dfs_traversal testGraph 99 =
      .error (.networkXError ("The node " ++ (toString 99 ++ " is not in the graph."))) ∧
    bfs_traversal testGraph 99 =
      .error (.networkXError ("The node " ++ (toString 99 ++ " is not in the graph."))) ∧
    (∀ l, dfs_traversal testGraph 99 ≠ .ok l) ∧
    (∀ l, bfs_traversal testGraph 99 ≠ .ok l) ∧
    (∀ m, dfs_traversal testGraph 99 ≠ .error (.valueError m)) ∧
    (∀ m, bfs_traversal testGraph 99 ≠ .error (.valueError m)) :=
  claim_C10 testGraph 99 (by decide)
